import Mathlib

/-!
Verification of the control-plane protocol of `flocker` against its
specification.  The definitions below are a shallow embedding of
`src/flocker/control/_protocol.py`: Python dictionaries become association
lists, the AMP `Big` argument's chunking loops become structural
recursions, deferred results become explicit callback lists, and the
broadcast engine of `ControlAMPService` becomes explicit state passing.
-/

namespace Flocker

/-! ## Association-list model of Python dictionaries

A Python `dict` is modelled as an association list with pairwise distinct
keys.  `dictLookup` is `d.get(k)` / `d[k]`, `dictInsert` is `d[k] = v`
(replace in place, append if fresh, preserving insertion order),
`dictErase` is `del d[k]` / `d.pop(k)`. -/

variable {κ : Type} {α : Type} [DecidableEq κ]

def dictLookup (k : κ) : List (κ × α) → Option α
  | [] => none
  | (k2, v) :: rest => if k2 = k then some v else dictLookup k rest

def dictInsert (k : κ) (v : α) : List (κ × α) → List (κ × α)
  | [] => [(k, v)]
  | (k2, v2) :: rest =>
    if k2 = k then (k, v) :: rest else (k2, v2) :: dictInsert k v rest

def dictErase (k : κ) : List (κ × α) → List (κ × α)
  | [] => []
  | (k2, v2) :: rest => if k2 = k then rest else (k2, v2) :: dictErase k rest

def dictModify (k : κ) (f : α → α) : List (κ × α) → List (κ × α)
  | [] => []
  | (k2, v2) :: rest =>
    if k2 = k then (k2, f v2) :: rest else (k2, v2) :: dictModify k f rest

def dictKeys (l : List (κ × α)) : List κ := l.map Prod.fst

theorem dictLookup_eq_none_of_not_mem_keys {k : κ} {l : List (κ × α)}
    (h : k ∉ dictKeys l) : dictLookup k l = none := by
  induction l with
  | nil => rfl
  | cons p rest ih =>
    simp only [dictKeys, List.map_cons, List.mem_cons, not_or] at h
    have hne : p.1 ≠ k := fun he => h.1 he.symm
    simp only [dictLookup, if_neg hne]
    exact ih h.2

theorem mem_keys_of_dictLookup_eq_some {k : κ} {v : α} {l : List (κ × α)}
    (h : dictLookup k l = some v) : k ∈ dictKeys l := by
  induction l with
  | nil => simp [dictLookup] at h
  | cons p rest ih =>
    simp only [dictLookup] at h
    by_cases he : p.1 = k
    · simp [dictKeys, he.symm]
    · rw [if_neg he] at h
      exact List.mem_cons_of_mem _ (ih h)

theorem mem_of_dictLookup_eq_some {k : κ} {v : α} {l : List (κ × α)}
    (h : dictLookup k l = some v) : (k, v) ∈ l := by
  induction l with
  | nil => simp [dictLookup] at h
  | cons p rest ih =>
    simp only [dictLookup] at h
    by_cases he : p.1 = k
    · rw [if_pos he] at h
      have : p = (k, v) := by
        cases p
        simp only [Option.some.injEq] at h
        simp_all
      exact this ▸ List.mem_cons_self _ _
    · rw [if_neg he] at h
      exact List.mem_cons_of_mem _ (ih h)

theorem dictLookup_eq_some_of_mem {k : κ} {v : α} {l : List (κ × α)}
    (hnd : (dictKeys l).Nodup) (h : (k, v) ∈ l) : dictLookup k l = some v := by
  induction l with
  | nil => simp at h
  | cons p rest ih =>
    simp only [dictKeys, List.map_cons, List.nodup_cons] at hnd
    rcases List.mem_cons.mp h with h1 | h2
    · subst h1
      simp [dictLookup]
    · have hk : p.1 ≠ k := by
        intro he
        exact hnd.1 (he ▸ (List.mem_map.mpr ⟨(k, v), h2, rfl⟩))
      simp only [dictLookup, if_neg hk]
      exact ih hnd.2 h2

theorem dictLookup_append {k : κ} {l1 l2 : List (κ × α)} :
    dictLookup k (l1 ++ l2) =
      match dictLookup k l1 with
      | some v => some v
      | none => dictLookup k l2 := by
  induction l1 with
  | nil => simp [dictLookup]
  | cons p rest ih =>
    by_cases he : p.1 = k <;> simp [dictLookup, he, ih]

theorem dictInsert_eq_append_of_not_mem {k : κ} {v : α} {l : List (κ × α)}
    (h : k ∉ dictKeys l) : dictInsert k v l = l ++ [(k, v)] := by
  induction l with
  | nil => rfl
  | cons p rest ih =>
    simp only [dictKeys, List.map_cons, List.mem_cons, not_or] at h
    have hne : p.1 ≠ k := fun he => h.1 he.symm
    cases p
    simp only [dictInsert, if_neg hne, List.cons_append, List.cons.injEq,
      true_and]
    exact ih h.2

theorem dictLookup_dictInsert_self {k : κ} {v : α} {l : List (κ × α)} :
    dictLookup k (dictInsert k v l) = some v := by
  induction l with
  | nil => simp [dictInsert, dictLookup]
  | cons p rest ih =>
    by_cases he : p.1 = k <;> simp [dictInsert, dictLookup, he, ih]

theorem dictLookup_dictInsert_ne {k k2 : κ} {v : α} {l : List (κ × α)}
    (h : k ≠ k2) : dictLookup k2 (dictInsert k v l) = dictLookup k2 l := by
  induction l with
  | nil => simp [dictInsert, dictLookup, h]
  | cons p rest ih =>
    by_cases he : p.1 = k
    · subst he
      simp [dictInsert, dictLookup, h, Ne.symm h]
    · by_cases he2 : p.1 = k2 <;>
        simp [dictInsert, dictLookup, he, he2, ih, h, Ne.symm h]

theorem dictLookup_dictErase_self {k : κ} {l : List (κ × α)}
    (hnd : (dictKeys l).Nodup) : dictLookup k (dictErase k l) = none := by
  induction l with
  | nil => rfl
  | cons p rest ih =>
    simp only [dictKeys, List.map_cons, List.nodup_cons] at hnd
    by_cases he : p.1 = k
    · subst he
      simp only [dictErase, if_pos rfl]
      exact dictLookup_eq_none_of_not_mem_keys hnd.1
    · simp only [dictErase, if_neg he, dictLookup, if_neg he]
      exact ih hnd.2

theorem dictLookup_dictErase_ne {k k2 : κ} {l : List (κ × α)}
    (h : k ≠ k2) : dictLookup k2 (dictErase k l) = dictLookup k2 l := by
  induction l with
  | nil => rfl
  | cons p rest ih =>
    by_cases he : p.1 = k
    · subst he
      have hne2 : p.1 ≠ k2 := h
      simp [dictErase, dictLookup, hne2]
    · by_cases he2 : p.1 = k2 <;>
        simp [dictErase, dictLookup, he, he2, ih, h, Ne.symm h]

theorem dictErase_dictInsert {k : κ} {v : α} {l : List (κ × α)}
    (hnd : (dictKeys l).Nodup) :
    dictErase k (dictInsert k v l) = dictErase k l := by
  induction l with
  | nil => simp [dictInsert, dictErase]
  | cons p rest ih =>
    simp only [dictKeys, List.map_cons, List.nodup_cons] at hnd
    by_cases he : p.1 = k
    · subst he
      simp [dictInsert, dictErase]
    · simp only [dictInsert, if_neg he, dictErase, if_neg he,
        List.cons.injEq, true_and]
      exact ih hnd.2

theorem dictErase_eq_self_of_not_mem {k : κ} {l : List (κ × α)}
    (h : k ∉ dictKeys l) : dictErase k l = l := by
  induction l with
  | nil => rfl
  | cons p rest ih =>
    simp only [dictKeys, List.map_cons, List.mem_cons, not_or] at h
    have hne : p.1 ≠ k := fun he => h.1 he.symm
    simp only [dictErase, if_neg hne, List.cons.injEq, true_and]
    exact ih h.2

theorem dictKeys_dictErase_subset {k : κ} {l : List (κ × α)} :
    dictKeys (dictErase k l) ⊆ dictKeys l := by
  induction l with
  | nil => simp [dictErase]
  | cons p rest ih =>
    by_cases he : p.1 = k
    · simp only [dictErase, if_pos he, dictKeys, List.map_cons]
      exact fun x hx => List.mem_cons_of_mem _ hx
    · simp only [dictErase, if_neg he, dictKeys, List.map_cons]
      intro x hx
      rcases List.mem_cons.mp hx with h1 | h2
      · exact h1 ▸ List.mem_cons_self _ _
      · exact List.mem_cons_of_mem _ (ih h2)

theorem dictKeys_dictErase_nodup {k : κ} {l : List (κ × α)}
    (hnd : (dictKeys l).Nodup) : (dictKeys (dictErase k l)).Nodup := by
  induction l with
  | nil => simpa [dictErase] using hnd
  | cons p rest ih =>
    simp only [dictKeys, List.map_cons, List.nodup_cons] at hnd
    by_cases he : p.1 = k
    · simp only [dictErase, if_pos he]
      exact hnd.2
    · simp only [dictErase, if_neg he, dictKeys, List.map_cons, List.nodup_cons]
      refine ⟨fun hmem => hnd.1 (dictKeys_dictErase_subset hmem), ih hnd.2⟩

theorem mem_dictErase_of_nodup {k : κ} {e : κ × α} {l : List (κ × α)}
    (hnd : (dictKeys l).Nodup) (h : e ∈ dictErase k l) :
    e ∈ l ∧ e.1 ≠ k := by
  induction l with
  | nil => simp [dictErase] at h
  | cons p rest ih =>
    simp only [dictKeys, List.map_cons, List.nodup_cons] at hnd
    by_cases he : p.1 = k
    · subst he
      simp only [dictErase, if_pos rfl] at h
      refine ⟨List.mem_cons_of_mem _ h, fun hek => ?_⟩
      exact hnd.1 (hek ▸ List.mem_map.mpr ⟨e, h, rfl⟩)
    · simp only [dictErase, if_neg he] at h
      rcases List.mem_cons.mp h with h1 | h2
      · exact ⟨h1 ▸ List.mem_cons_self _ _, h1 ▸ he⟩
      · obtain ⟨hm, hk⟩ := ih hnd.2 h2
        exact ⟨List.mem_cons_of_mem _ hm, hk⟩

theorem dictKeys_dictInsert_of_mem {k : κ} {v : α} {l : List (κ × α)}
    (h : k ∈ dictKeys l) : dictKeys (dictInsert k v l) = dictKeys l := by
  induction l with
  | nil => simp [dictKeys] at h
  | cons p rest ih =>
    by_cases he : p.1 = k
    · simp [dictInsert, he, dictKeys]
    · simp only [dictKeys, List.map_cons, List.mem_cons] at h
      rcases h with h1 | h2
      · exact absurd h1.symm he
      · simp only [dictInsert, if_neg he, dictKeys, List.map_cons,
          List.cons.injEq, true_and]
        exact ih h2

theorem mem_dictInsert_of_nodup {k : κ} {v : α} {e : κ × α} {l : List (κ × α)}
    (hnd : (dictKeys l).Nodup) (h : e ∈ dictInsert k v l) :
    e = (k, v) ∨ (e ∈ l ∧ e.1 ≠ k) := by
  induction l with
  | nil => simp only [dictInsert, List.mem_singleton] at h; exact Or.inl h
  | cons p rest ih =>
    simp only [dictKeys, List.map_cons, List.nodup_cons] at hnd
    by_cases he : p.1 = k
    · subst he
      simp only [dictInsert, if_pos rfl] at h
      rcases List.mem_cons.mp h with h1 | h2
      · exact Or.inl h1
      · refine Or.inr ⟨List.mem_cons_of_mem _ h2, fun hek => ?_⟩
        exact hnd.1 (hek ▸ List.mem_map.mpr ⟨e, h2, rfl⟩)
    · simp only [dictInsert, if_neg he] at h
      rcases List.mem_cons.mp h with h1 | h2
      · exact Or.inr ⟨h1 ▸ List.mem_cons_self _ _, h1 ▸ he⟩
      · rcases ih hnd.2 h2 with h3 | h4
        · exact Or.inl h3
        · exact Or.inr ⟨List.mem_cons_of_mem _ h4.1, h4.2⟩

theorem dictLookup_dictModify_self {k : κ} {f : α → α} {l : List (κ × α)} :
    dictLookup k (dictModify k f l) = (dictLookup k l).map f := by
  induction l with
  | nil => simp [dictModify, dictLookup]
  | cons p rest ih =>
    by_cases he : p.1 = k <;> simp [dictModify, dictLookup, he, ih]

theorem dictLookup_dictModify_ne {k k2 : κ} {f : α → α} {l : List (κ × α)}
    (h : k ≠ k2) : dictLookup k2 (dictModify k f l) = dictLookup k2 l := by
  induction l with
  | nil => rfl
  | cons p rest ih =>
    by_cases he : p.1 = k
    · subst he
      have hne2 : p.1 ≠ k2 := h
      simp [dictModify, dictLookup, hne2]
    · by_cases he2 : p.1 = k2 <;>
        simp [dictModify, dictLookup, he, he2, ih, h, Ne.symm h]

theorem dictKeys_dictModify {k : κ} {f : α → α} {l : List (κ × α)} :
    dictKeys (dictModify k f l) = dictKeys l := by
  induction l with
  | nil => rfl
  | cons p rest ih =>
    by_cases he : p.1 = k <;> simp [dictModify, dictKeys, he] <;>
      simpa [dictKeys] using ih

theorem mem_dictModify_of_nodup {k : κ} {f : α → α} {e : κ × α}
    {l : List (κ × α)} (hnd : (dictKeys l).Nodup) (h : e ∈ dictModify k f l) :
    (e ∈ l ∧ e.1 ≠ k) ∨ ∃ v, dictLookup k l = some v ∧ e = (k, f v) := by
  induction l with
  | nil => simp [dictModify] at h
  | cons p rest ih =>
    simp only [dictKeys, List.map_cons, List.nodup_cons] at hnd
    by_cases he : p.1 = k
    · subst he
      simp only [dictModify, if_pos rfl] at h
      rcases List.mem_cons.mp h with h1 | h2
      · right
        exact ⟨p.2, by simp [dictLookup], by cases p; simpa using h1⟩
      · refine Or.inl ⟨List.mem_cons_of_mem _ h2, fun hek => ?_⟩
        exact hnd.1 (hek ▸ List.mem_map.mpr ⟨e, h2, rfl⟩)
    · simp only [dictModify, if_neg he] at h
      rcases List.mem_cons.mp h with h1 | h2
      · exact Or.inl ⟨h1 ▸ List.mem_cons_self _ _, h1 ▸ he⟩
      · rcases ih hnd.2 h2 with h3 | ⟨v, hv, hev⟩
        · exact Or.inl ⟨List.mem_cons_of_mem _ h3.1, h3.2⟩
        · exact Or.inr ⟨v, by simp [dictLookup, if_neg he, hv], hev⟩

/-! ## Injectivity of decimal rendering

The `Big` wrapper names its chunks `"%s.%d" % (name, counter)`.  To reason
about lookups of those keys we prove that `Nat.repr` (Lean's decimal
rendering, standing in for Python's `%d`) is injective. -/

theorem toDigitsCore_shift (fuel : Nat) : ∀ (n : Nat) (ds : List Char),
    n < fuel →
    Nat.toDigitsCore 10 fuel n ds = Nat.toDigitsCore 10 fuel n [] ++ ds := by
  induction fuel with
  | zero => intro n ds h; omega
  | succ fuel ih =>
    intro n ds _
    by_cases h0 : n / 10 = 0
    · simp [Nat.toDigitsCore, h0]
    · have hn : 0 < n := by
        rcases Nat.eq_zero_or_pos n with h | h
        · subst h; simp at h0
        · exact h
      have hlt : n / 10 < fuel := by
        have := Nat.div_lt_self hn (by omega : 1 < 10)
        omega
      simp only [Nat.toDigitsCore, h0, if_false]
      rw [ih (n / 10) ((n % 10).digitChar :: ds) hlt,
        ih (n / 10) [(n % 10).digitChar] hlt]
      simp

theorem toDigitsCore_fuel (n : Nat) : ∀ f1 f2 : Nat, n < f1 → n < f2 →
    Nat.toDigitsCore 10 f1 n [] = Nat.toDigitsCore 10 f2 n [] := by
  induction n using Nat.strong_induction_on with
  | _ n ih =>
    intro f1 f2 h1 h2
    match f1, f2 with
    | a + 1, b + 1 =>
      by_cases h0 : n / 10 = 0
      · simp [Nat.toDigitsCore, h0]
      · have hn : 0 < n := by
          rcases Nat.eq_zero_or_pos n with h | h
          · subst h; simp at h0
          · exact h
        have hdiv : n / 10 < n := Nat.div_lt_self hn (by omega)
        simp only [Nat.toDigitsCore, h0, if_false]
        rw [toDigitsCore_shift a (n / 10) [(n % 10).digitChar] (by omega),
          toDigitsCore_shift b (n / 10) [(n % 10).digitChar] (by omega),
          ih (n / 10) hdiv a b (by omega) (by omega)]

theorem toDigits_base {n : Nat} (h : n < 10) :
    Nat.toDigits 10 n = [n.digitChar] := by
  have h0 : n / 10 = 0 := Nat.div_eq_of_lt h
  have hm : n % 10 = n := Nat.mod_eq_of_lt h
  simp [Nat.toDigits, Nat.toDigitsCore, h0, hm]

theorem toDigits_step {n : Nat} (h : 10 ≤ n) :
    Nat.toDigits 10 n = Nat.toDigits 10 (n / 10) ++ [(n % 10).digitChar] := by
  have h0 : n / 10 ≠ 0 := by
    intro he
    have := Nat.div_eq_of_lt (show n < 10 by omega)
    omega
  have hdiv : n / 10 < n := Nat.div_lt_self (by omega) (by omega)
  show Nat.toDigitsCore 10 (n + 1) n [] = _
  simp only [Nat.toDigitsCore, h0, if_false]
  rw [toDigitsCore_shift n (n / 10) [(n % 10).digitChar] (by omega)]
  unfold Nat.toDigits
  rw [toDigitsCore_fuel (n / 10) n (n / 10 + 1) (by omega) (by omega)]

def charVal (c : Char) : Nat := c.toNat - 48

theorem charVal_digitChar {d : Nat} (h : d < 10) :
    charVal d.digitChar = d := by
  interval_cases d <;> rfl

def valDigits (l : List Char) : Nat :=
  l.foldl (fun a c => 10 * a + charVal c) 0

theorem foldl_val_append (l : List Char) (c : Char) (a : Nat) :
    (l ++ [c]).foldl (fun a c => 10 * a + charVal c) a =
      10 * (l.foldl (fun a c => 10 * a + charVal c) a) + charVal c := by
  rw [List.foldl_append]
  rfl

theorem foldl_val_init (l : List Char) : ∀ a : Nat,
    l.foldl (fun a c => 10 * a + charVal c) a =
      a * 10 ^ l.length + valDigits l := by
  induction l with
  | nil => intro a; simp [valDigits]
  | cons c rest ih =>
    intro a
    simp only [List.foldl_cons, valDigits, List.length_cons]
    rw [ih (10 * a + charVal c), ih (10 * 0 + charVal c)]
    ring

theorem valDigits_toDigits : ∀ n : Nat, valDigits (Nat.toDigits 10 n) = n := by
  intro n
  induction n using Nat.strong_induction_on with
  | _ n ih =>
    by_cases h : n < 10
    · rw [toDigits_base h]
      simp [valDigits, charVal_digitChar h]
    · rw [toDigits_step (by omega)]
      have hdiv : n / 10 < n := Nat.div_lt_self (by omega) (by omega)
      unfold valDigits
      rw [foldl_val_append]
      have : (Nat.toDigits 10 (n / 10)).foldl
          (fun a c => 10 * a + charVal c) 0 = n / 10 := ih (n / 10) hdiv
      rw [this, charVal_digitChar (Nat.mod_lt n (by omega))]
      omega

theorem natRepr_injective : Function.Injective Nat.repr := by
  intro m n h
  have hd : Nat.toDigits 10 m = Nat.toDigits 10 n := by
    have := congrArg String.data h
    simpa [Nat.repr, List.asString] using this
  have := congrArg valDigits hd
  rwa [valDigits_toDigits, valDigits_toDigits] at this

theorem toDigits_ne_nil (n : Nat) : Nat.toDigits 10 n ≠ [] := by
  by_cases h : n < 10
  · rw [toDigits_base h]; simp
  · rw [toDigits_step (by omega)]; simp

theorem natRepr_length_pos (n : Nat) : 0 < (Nat.repr n).length := by
  have := toDigits_ne_nil n
  simp only [Nat.repr, List.asString, String.length]
  exact List.length_pos.mpr this

/-! ## The `Big` AMP argument (`src/flocker/control/_protocol.py`, `Big`)

Byte strings are modelled as `List Nat`.  The wrapped argument
(`SerializableArgument`, whose `wire_encode`/`wire_decode` helpers are the
external persistence collaborators) is abstracted as an `encode`/`decode`
function pair; twisted's base `Argument.toBox` writes
`strings[name] = toString(obj)` and its `fromBox` reads `strings.get(name)`
and raises when it is absent. -/

abbrev Bytes := List Nat

/-- The per-value frame limit of twisted's AMP (`MAX_VALUE_LENGTH = 0xffff`). -/
def MAX_VALUE_LENGTH : Nat := 65535

/-- The indexed chunk key `"%s.%d" % (name, counter)` used by `Big`. -/
def chunkKey (name : String) (i : Nat) : String := name ++ "." ++ Nat.repr i

theorem chunkKey_inj {name : String} {i j : Nat}
    (h : chunkKey name i = chunkKey name j) : i = j := by
  have hd := congrArg String.data h
  simp only [chunkKey, String.data_append] at hd
  have h2 : (Nat.repr i).data = (Nat.repr j).data :=
    List.append_cancel_left hd
  have h3 : Nat.repr i = Nat.repr j := by
    cases hi : Nat.repr i
    cases hj : Nat.repr j
    simp_all
  exact natRepr_injective h3

theorem chunkKey_ne_name {name : String} {i : Nat} : chunkKey name i ≠ name := by
  intro h
  have := congrArg String.length h
  simp only [chunkKey, String.length_append] at this
  have h1 : String.length "." = 1 := rfl
  have := natRepr_length_pos i
  omega

/-- The chunking loop in `Big.toBox`: read `MAX_VALUE_LENGTH` bytes at a
time until the read comes back empty.  `fuel` bounds the iteration count;
the length of the remaining value is always a sufficient bound. -/
def bigChunks : Nat → Bytes → List Bytes
  | 0, _ => []
  | _ + 1, [] => []
  | fuel + 1, b :: rest =>
    (b :: rest).take MAX_VALUE_LENGTH ::
      bigChunks fuel ((b :: rest).drop MAX_VALUE_LENGTH)

/-- The indexed insertion order of the chunk writes
`strings["%s.%d" % (name, counter)] = nextChunk`, starting at `counter`. -/
def chunkEntries (name : String) : Nat → List Bytes → List (String × Bytes)
  | _, [] => []
  | i, c :: rest => (chunkKey name i, c) :: chunkEntries name (i + 1) rest

/-- Shallow embedding of `Big.toBox`: the wrapped argument serializes the
object under `name`, the value is popped back out and re-inserted in
chunks of at most `MAX_VALUE_LENGTH` bytes under the indexed keys. -/
def bigToBox {α : Type} (encode : α → Bytes) (name : String) (obj : α)
    (strings : List (String × Bytes)) : List (String × Bytes) :=
  let strings1 := dictInsert name (encode obj) strings
  match dictLookup name strings1 with
  | none => strings1
  | some value =>
    let strings2 := dictErase name strings1
    (chunkEntries name 0 (bigChunks value.length value)).foldl
      (fun m e => dictInsert e.1 e.2 m) strings2

/-- The reassembly loop in `Big.fromBox`: look chunks up by successive
indices, stopping at the first missing index; after appending each chunk
the accumulated buffer is written back under `strings[name]`. -/
def assembleLoop (name : String) : Nat → Nat → Bytes →
    List (String × Bytes) → List (String × Bytes)
  | 0, _, _, strings => strings
  | fuel + 1, counter, acc, strings =>
    match dictLookup (chunkKey name counter) strings with
    | none => strings
    | some chunk =>
      let acc2 := acc ++ chunk
      assembleLoop name fuel (counter + 1) acc2 (dictInsert name acc2 strings)

/-- Shallow embedding of `Big.fromBox` followed by the wrapped argument's
`fromBox`: reassemble the chunks, then decode `strings.get(name)`; a
missing key or a rejected byte string is a decoding failure (`none`). -/
def bigFromBox {β : Type} (decode : Bytes → Option β) (name : String)
    (strings : List (String × Bytes)) : Option β :=
  let strings2 := assembleLoop name (strings.length + 1) 0 [] strings
  match dictLookup name strings2 with
  | none => none
  | some bs => decode bs

theorem bigChunks_flatten : ∀ (fuel : Nat) (value : Bytes),
    value.length ≤ fuel → (bigChunks fuel value).flatten = value := by
  have hM : 0 < MAX_VALUE_LENGTH := by norm_num [MAX_VALUE_LENGTH]
  intro fuel
  induction fuel with
  | zero =>
    intro value h
    have : value = [] := List.eq_nil_of_length_eq_zero (by omega)
    subst this
    rfl
  | succ fuel ih =>
    intro value h
    match value with
    | [] => rfl
    | b :: rest =>
      simp only [List.length_cons] at h
      simp only [bigChunks, List.flatten_cons]
      rw [ih ((b :: rest).drop MAX_VALUE_LENGTH)
        (by simp only [List.length_drop, List.length_cons]; omega)]
      exact List.take_append_drop _ _

theorem bigChunks_length : ∀ (fuel : Nat) (value : Bytes),
    value.length ≤ fuel →
    (bigChunks fuel value).length =
      (value.length + MAX_VALUE_LENGTH - 1) / MAX_VALUE_LENGTH := by
  have hM : 0 < MAX_VALUE_LENGTH := by norm_num [MAX_VALUE_LENGTH]
  intro fuel
  induction fuel with
  | zero =>
    intro value h
    have : value = [] := List.eq_nil_of_length_eq_zero (by omega)
    subst this
    simp only [bigChunks, List.length_nil, Nat.zero_add]
    exact (Nat.div_eq_of_lt (by omega)).symm
  | succ fuel ih =>
    intro value h
    match value with
    | [] =>
      simp only [bigChunks, List.length_nil, Nat.zero_add]
      exact (Nat.div_eq_of_lt (by omega)).symm
    | b :: rest =>
      simp only [List.length_cons] at h
      simp only [bigChunks, List.length_cons]
      rw [ih ((b :: rest).drop MAX_VALUE_LENGTH)
        (by simp only [List.length_drop, List.length_cons]; omega)]
      simp only [List.length_drop, List.length_cons]
      rcases le_or_lt (rest.length + 1) MAX_VALUE_LENGTH with hle | hlt
      · have h1 : rest.length + 1 - MAX_VALUE_LENGTH = 0 := by omega
        rw [h1]
        have h2 : (0 + MAX_VALUE_LENGTH - 1) / MAX_VALUE_LENGTH = 0 :=
          Nat.div_eq_of_lt (by omega)
        have h3 : (rest.length + 1 + MAX_VALUE_LENGTH - 1) / MAX_VALUE_LENGTH
            = 1 := by
          have := Nat.div_eq_of_lt_le
            (show 1 * MAX_VALUE_LENGTH ≤ rest.length + 1 + MAX_VALUE_LENGTH - 1
              by omega)
            (show rest.length + 1 + MAX_VALUE_LENGTH - 1
                < (1 + 1) * MAX_VALUE_LENGTH by omega)
          omega
        omega
      · have h1 : rest.length + 1 - MAX_VALUE_LENGTH + MAX_VALUE_LENGTH - 1 =
            rest.length + 1 - 1 := by omega
        rw [h1]
        have h2 : rest.length + 1 + MAX_VALUE_LENGTH - 1 =
            (rest.length + 1 - 1) + MAX_VALUE_LENGTH := by omega
        rw [h2, Nat.add_div_right _ hM]

theorem bigChunks_sizeized : ∀ (fuel : Nat) (value : Bytes),
    ∀ c ∈ bigChunks fuel value, c.length ≤ MAX_VALUE_LENGTH := by
  intro fuel
  induction fuel with
  | zero => intro value c hc; simp [bigChunks] at hc
  | succ fuel ih =>
    intro value c hc
    match value with
    | [] => simp [bigChunks] at hc
    | b :: rest =>
      simp only [bigChunks, List.mem_cons] at hc
      rcases hc with h1 | h2
      · subst h1
        simp [List.length_take]
      · exact ih _ c h2

theorem chunkEntries_keys (name : String) : ∀ (cs : List Bytes) (i : Nat),
    (chunkEntries name i cs).map Prod.fst =
      (List.range' i cs.length).map (chunkKey name) := by
  intro cs
  induction cs with
  | nil => intro i; rfl
  | cons c rest ih =>
    intro i
    simp only [chunkEntries, List.map_cons, List.length_cons, List.range',
      List.cons.injEq, true_and]
    exact ih (i + 1)

theorem chunkEntries_lookup (name : String) : ∀ (cs : List Bytes) (i j : Nat),
    dictLookup (chunkKey name j) (chunkEntries name i cs) =
      if i ≤ j then cs.get? (j - i) else none := by
  intro cs
  induction cs with
  | nil => intro i j; simp [chunkEntries, dictLookup]
  | cons c rest ih =>
    intro i j
    by_cases he : i = j
    · subst he
      simp [chunkEntries, dictLookup, chunkKey]
    · have hne : chunkKey name i ≠ chunkKey name j := fun h => he (chunkKey_inj h)
      simp only [chunkEntries, dictLookup, if_neg hne]
      rw [ih (i + 1) j]
      rcases Nat.lt_or_ge j i with hlt | hge
      · rw [if_neg (by omega), if_neg (by omega)]
      · have hij : i < j := by omega
        rw [if_pos (by omega), if_pos (by omega)]
        have : j - i = (j - (i + 1)) + 1 := by omega
        rw [this]
        rfl

theorem chunkEntries_name_not_mem (name : String) (cs : List Bytes) (i : Nat) :
    name ∉ dictKeys (chunkEntries name i cs) := by
  intro h
  rw [dictKeys, chunkEntries_keys] at h
  obtain ⟨j, _, hj⟩ := List.mem_map.mp h
  exact chunkKey_ne_name hj

theorem chunkEntries_keys_nodup (name : String) (cs : List Bytes) (i : Nat) :
    (dictKeys (chunkEntries name i cs)).Nodup := by
  rw [dictKeys, chunkEntries_keys]
  refine List.Nodup.map_on ?_ (List.nodup_range' _ _)
  intro x _ y _ h
  exact chunkKey_inj h

theorem foldl_dictInsert_fresh {κ : Type} {α : Type} [DecidableEq κ] :
    ∀ (es : List (κ × α)) (m : List (κ × α)),
    (∀ e ∈ es, e.1 ∉ dictKeys m) → (dictKeys es).Nodup →
    es.foldl (fun m e => dictInsert e.1 e.2 m) m = m ++ es := by
  intro es
  induction es with
  | nil => intro m _ _; simp
  | cons e rest ih =>
    intro m hfresh hnd
    simp only [dictKeys, List.map_cons, List.nodup_cons] at hnd
    simp only [List.foldl_cons]
    rw [dictInsert_eq_append_of_not_mem (hfresh e (List.mem_cons_self _ _))]
    rw [ih (m ++ [(e.1, e.2)]) ?_ hnd.2]
    · simp
    · intro e2 he2
      simp only [dictKeys, List.map_append, List.mem_append, List.map_cons,
        List.map_nil, List.mem_singleton, not_or]
      refine ⟨fun h => hfresh e2 (List.mem_cons_of_mem _ he2) h, fun h => ?_⟩
      exact hnd.1 (h ▸ List.mem_map.mpr ⟨e2, he2, rfl⟩)

theorem chunkEntries_length (name : String) : ∀ (cs : List Bytes) (i : Nat),
    (chunkEntries name i cs).length = cs.length := by
  intro cs
  induction cs with
  | nil => intro i; rfl
  | cons c rest ih =>
    intro i
    simp only [chunkEntries, List.length_cons, ih (i + 1)]

/-- Characterization of `Big.toBox` on a strings map whose keys are
pairwise distinct and contain no chunk key of `name`: the original key is
popped and the indexed chunk entries are appended in order. -/
theorem bigToBox_eq {α : Type} (encode : α → Bytes) (name : String) (obj : α)
    (strings : List (String × Bytes)) (hnd : (dictKeys strings).Nodup)
    (hfresh : ∀ i, chunkKey name i ∉ dictKeys strings) :
    bigToBox encode name obj strings =
      dictErase name strings ++
        chunkEntries name 0 (bigChunks (encode obj).length (encode obj)) := by
  simp only [bigToBox, dictLookup_dictInsert_self]
  rw [dictErase_dictInsert hnd]
  rw [foldl_dictInsert_fresh _ _ ?fresh (chunkEntries_keys_nodup name _ 0)]
  case fresh =>
    intro e he hmem
    have hkey : e.1 ∈ dictKeys (chunkEntries name 0
        (bigChunks (encode obj).length (encode obj))) :=
      List.mem_map.mpr ⟨e, he, rfl⟩
    rw [dictKeys, chunkEntries_keys] at hkey
    obtain ⟨j, _, hj⟩ := List.mem_map.mp hkey
    exact hfresh j (hj ▸ dictKeys_dictErase_subset hmem)

theorem bigToBox_lookup_chunk {α : Type} (encode : α → Bytes) (name : String)
    (obj : α) (strings : List (String × Bytes))
    (hnd : (dictKeys strings).Nodup)
    (hfresh : ∀ i, chunkKey name i ∉ dictKeys strings) (i : Nat) :
    dictLookup (chunkKey name i) (bigToBox encode name obj strings) =
      (bigChunks (encode obj).length (encode obj)).get? i := by
  rw [bigToBox_eq encode name obj strings hnd hfresh, dictLookup_append]
  have h1 : dictLookup (chunkKey name i) (dictErase name strings) = none :=
    dictLookup_eq_none_of_not_mem_keys
      (fun h => hfresh i (dictKeys_dictErase_subset h))
  rw [h1]
  simp only [chunkEntries_lookup, Nat.zero_le, if_true, Nat.sub_zero]

theorem bigToBox_lookup_name {α : Type} (encode : α → Bytes) (name : String)
    (obj : α) (strings : List (String × Bytes))
    (hnd : (dictKeys strings).Nodup)
    (hfresh : ∀ i, chunkKey name i ∉ dictKeys strings) :
    dictLookup name (bigToBox encode name obj strings) = none := by
  rw [bigToBox_eq encode name obj strings hnd hfresh, dictLookup_append]
  rw [dictLookup_dictErase_self hnd]
  exact dictLookup_eq_none_of_not_mem_keys (chunkEntries_name_not_mem name _ 0)

/-- Behaviour of the reassembly loop of `Big.fromBox` on a strings map in
which exactly the chunks `cs` of `name` are present at their indices:
starting from index `j` it concatenates the remaining chunks, leaving the
buffer under `name`, and it stops at the first missing index. -/
theorem assembleLoop_spec (name : String) (cs : List Bytes) :
    ∀ (fuel j : Nat) (acc : Bytes) (S : List (String × Bytes)),
    cs.length - j < fuel →
    (∀ i, dictLookup (chunkKey name i) S = cs.get? i) →
    (j < cs.length →
      dictLookup name (assembleLoop name fuel j acc S) =
        some (acc ++ (cs.drop j).flatten)) ∧
    (cs.length ≤ j → assembleLoop name fuel j acc S = S) := by
  intro fuel
  induction fuel with
  | zero => intro j acc S hf _; omega
  | succ fuel ih =>
    intro j acc S hf h1
    constructor
    · intro hj
      have hsome : cs.get? j = some (cs.get ⟨j, hj⟩) := List.get?_eq_get hj
      have hstep : assembleLoop name (fuel + 1) j acc S =
          assembleLoop name fuel (j + 1) (acc ++ cs.get ⟨j, hj⟩)
            (dictInsert name (acc ++ cs.get ⟨j, hj⟩) S) := by
        simp only [assembleLoop, h1 j, hsome]
      rw [hstep]
      have h2 : ∀ i, dictLookup (chunkKey name i)
          (dictInsert name (acc ++ cs.get ⟨j, hj⟩) S) = cs.get? i := by
        intro i
        rw [dictLookup_dictInsert_ne (Ne.symm chunkKey_ne_name)]
        exact h1 i
      have hdrop : cs.drop j = cs.get ⟨j, hj⟩ :: cs.drop (j + 1) := by
        rw [List.drop_eq_getElem_cons hj]
        rfl
      have hflat : (List.drop j cs).flatten =
          cs.get ⟨j, hj⟩ ++ (List.drop (j + 1) cs).flatten := by
        rw [hdrop, List.flatten_cons]
      rcases Nat.lt_or_ge (j + 1) cs.length with hj2 | hj2
      · have := (ih (j + 1) (acc ++ cs.get ⟨j, hj⟩) _ (by omega) h2).1 hj2
        rw [this, hflat, List.append_assoc]
      · have := (ih (j + 1) (acc ++ cs.get ⟨j, hj⟩) _ (by omega) h2).2 hj2
        rw [this, dictLookup_dictInsert_self, hflat,
          List.drop_eq_nil_of_le hj2, List.flatten_nil, List.append_nil]
    · intro hj
      have hnone : cs.get? j = none := List.get?_eq_none.mpr hj
      have hl : dictLookup (chunkKey name j) S = none := by rw [h1 j, hnone]
      simp only [assembleLoop, hl]

/-- C4: big-argument chunking law.  For every argument name and every
payload whose serialized form has byte length `L`, `Big.toBox` removes the
original key from the strings map and emits exactly
`⌈L / MAX_VALUE_LENGTH⌉` chunk entries under the keys `"<n>.0"` through
`"<n>.(k-1)"`, in that index order, each chunk of size at most
`MAX_VALUE_LENGTH`. -/
theorem claim_C4_big_chunking {α : Type} (encode : α → Bytes) (name : String)
    (obj : α) (strings : List (String × Bytes))
    (hnd : (dictKeys strings).Nodup)
    (hfresh : ∀ i, chunkKey name i ∉ dictKeys strings) :
    bigToBox encode name obj strings =
      dictErase name strings ++
        chunkEntries name 0 (bigChunks (encode obj).length (encode obj)) ∧
    dictLookup name (bigToBox encode name obj strings) = none ∧
    (bigChunks (encode obj).length (encode obj)).length =
      ((encode obj).length + MAX_VALUE_LENGTH - 1) / MAX_VALUE_LENGTH ∧
    (chunkEntries name 0 (bigChunks (encode obj).length (encode obj))).map
        Prod.fst =
      (List.range (bigChunks (encode obj).length (encode obj)).length).map
        (chunkKey name) ∧
    ∀ c ∈ bigChunks (encode obj).length (encode obj),
      c.length ≤ MAX_VALUE_LENGTH := by
  refine ⟨bigToBox_eq encode name obj strings hnd hfresh,
    bigToBox_lookup_name encode name obj strings hnd hfresh,
    bigChunks_length _ _ le_rfl, ?_, bigChunks_sizeized _ _⟩
  rw [chunkEntries_keys, List.range_eq_range']

theorem claim_C4_big_chunking_witness :
    (dictKeys ([] : List (String × Bytes))).Nodup ∧
    dictLookup "configuration"
      (bigToBox (fun n : Nat => List.replicate n 7) "configuration" 3 []) =
      none :=
  ⟨List.nodup_nil,
    (claim_C4_big_chunking (fun n : Nat => List.replicate n 7) "configuration"
      3 [] List.nodup_nil (fun i h => by simp [dictKeys] at h)).2.1⟩

/-- C5: `Big` round-trip.  For every payload accepted by the wrapped
argument, `Big.fromBox` applied to the strings map produced by `Big.toBox`
concatenates the chunks strictly by numeric index, restores the original
byte string under the argument name, and decodes to an object equal to the
original; a payload of encoded length `2 * MAX_VALUE_LENGTH + 17` yields
exactly the three chunk keys `.0`, `.1`, `.2`. -/
theorem claim_C5_big_roundtrip {α : Type} (encode : α → Bytes)
    (decode : Bytes → Option α) (name : String) (obj : α)
    (strings : List (String × Bytes)) (hnd : (dictKeys strings).Nodup)
    (hfresh : ∀ i, chunkKey name i ∉ dictKeys strings)
    (hrt : decode (encode obj) = some obj)
    (hpos : 0 < (encode obj).length) :
    bigFromBox decode name (bigToBox encode name obj strings) = some obj ∧
    ((encode obj).length = 2 * MAX_VALUE_LENGTH + 17 →
      (bigChunks (encode obj).length (encode obj)).length = 3 ∧
      (chunkEntries name 0 (bigChunks (encode obj).length (encode obj))).map
          Prod.fst =
        [chunkKey name 0, chunkKey name 1, chunkKey name 2]) := by
  have hM : 0 < MAX_VALUE_LENGTH := by norm_num [MAX_VALUE_LENGTH]
  have hlen : (bigChunks (encode obj).length (encode obj)).length =
      ((encode obj).length + MAX_VALUE_LENGTH - 1) / MAX_VALUE_LENGTH :=
    bigChunks_length _ _ le_rfl
  have hkpos : 0 < (bigChunks (encode obj).length (encode obj)).length := by
    rw [hlen]
    have hle : 1 * MAX_VALUE_LENGTH ≤
        (encode obj).length + MAX_VALUE_LENGTH - 1 := by omega
    have := (Nat.le_div_iff_mul_le hM).mpr hle
    omega
  constructor
  · simp only [bigFromBox]
    have hfuel : (bigChunks (encode obj).length (encode obj)).length - 0 <
        (bigToBox encode name obj strings).length + 1 := by
      rw [bigToBox_eq encode name obj strings hnd hfresh,
        List.length_append, chunkEntries_length]
      omega
    have hasm := (assembleLoop_spec name
        (bigChunks (encode obj).length (encode obj))
        ((bigToBox encode name obj strings).length + 1) 0 []
        (bigToBox encode name obj strings) hfuel
        (bigToBox_lookup_chunk encode name obj strings hnd hfresh)).1 hkpos
    rw [List.drop_zero, List.nil_append, bigChunks_flatten _ _ le_rfl]
      at hasm
    rw [hasm]
    exact hrt
  · intro hL
    have h3 : (2 * MAX_VALUE_LENGTH + 17 + MAX_VALUE_LENGTH - 1) /
        MAX_VALUE_LENGTH = 3 := by decide
    constructor
    · rw [hlen, hL, h3]
    · rw [chunkEntries_keys name _ 0, hlen, hL, h3]
      rfl

theorem claim_C5_big_roundtrip_witness :
    (fun l : Bytes => l.head?) ((fun n : Nat => [n]) 5) = some 5 ∧
    0 < ((fun n : Nat => [n]) 5).length ∧
    bigFromBox (fun l : Bytes => l.head?) "state"
      (bigToBox (fun n : Nat => [n]) "state" 5 []) = some 5 :=
  ⟨rfl, by decide,
    (claim_C5_big_roundtrip (fun n : Nat => [n]) (fun l : Bytes => l.head?)
      "state" 5 [] List.nodup_nil (fun i h => by simp [dictKeys] at h)
      rfl (by decide)).1⟩

/-- C10: zero-length payload edge case.  If the wrapped argument serializes
an object to zero bytes, `Big.toBox` removes the original key and emits no
chunk keys, and `Big.fromBox` terminates immediately at missing index `0`
with the argument name still absent, so the wrapped decode gets no value
and fails: empty serializations do not round-trip through `Big`. -/
theorem claim_C10_empty_payload {α : Type} (encode : α → Bytes)
    (decode : Bytes → Option α) (name : String) (obj : α)
    (strings : List (String × Bytes)) (hnd : (dictKeys strings).Nodup)
    (hfresh : ∀ i, chunkKey name i ∉ dictKeys strings)
    (hzero : encode obj = []) :
    bigToBox encode name obj strings = dictErase name strings ∧
    dictLookup name (bigToBox encode name obj strings) = none ∧
    bigFromBox decode name (bigToBox encode name obj strings) = none := by
  have h1 : bigToBox encode name obj strings = dictErase name strings := by
    rw [bigToBox_eq encode name obj strings hnd hfresh, hzero]
    simp [bigChunks, chunkEntries]
  refine ⟨h1, bigToBox_lookup_name encode name obj strings hnd hfresh, ?_⟩
  have h2 : ∀ i, dictLookup (chunkKey name i) (dictErase name strings) =
      ([] : List Bytes).get? i := by
    intro i
    rw [dictLookup_eq_none_of_not_mem_keys
      (fun h => hfresh i (dictKeys_dictErase_subset h))]
    rfl
  have hasm := (assembleLoop_spec name []
      ((dictErase name strings).length + 1) 0 [] (dictErase name strings)
      (by simp) h2).2 (by simp)
  simp only [bigFromBox, h1, hasm]
  rw [dictLookup_dictErase_self hnd]

theorem claim_C10_empty_payload_witness :
    (fun _ : Nat => ([] : Bytes)) 0 = [] ∧
    bigFromBox (fun l : Bytes => l.head?) "state_changes"
      (bigToBox (fun _ : Nat => ([] : Bytes)) "state_changes" 0 []) = none :=
  ⟨rfl,
    (claim_C10_empty_payload (fun _ : Nat => ([] : Bytes))
      (fun l : Bytes => l.head?) "state_changes" 0 [] List.nodup_nil
      (fun i h => by simp [dictKeys] at h) rfl).2.2⟩

/-! ## The control-service broadcast engine (`ControlAMPService`)

Connections and Deferreds are identified by natural numbers.  The state of
one `ControlAMPService` together with its collaborators is a record:
`connections` is `self.connections`, `inFlight` is
`self._current_command_for_connection` (value: the in-flight command's
Deferred and the `already_scheduled` flag), `pending` maps each not yet
fired Deferred to the callbacks attached to it, `sends` is the trace of
`callRemote(ClusterStatusCommand, ...)` events `(deferred, connection,
configuration, state)`, `cache` is `_caching_encoder._cache` (tracking the
set of cached keys, `Sum.inl` a configuration, `Sum.inr` a state),
`config` is what `configuration_service.get()` returns and `clusterState`
what `cluster_state.as_deployment()` returns.  Exceptions propagate like
Python exceptions: every operation returns the mutated state together with
`Option PyErr`. -/

abbrev Conn := Nat
abbrev DeferredId := Nat

inductive PyErr where
  /-- evaluation of an unbound name -/
  | nameError (n : String)
  /-- `del d[k]` or `set.remove` on a missing key -/
  | keyError
  /-- a synchronous exception raised out of `callRemote` -/
  | sendError
  deriving DecidableEq, Repr

/-- Callbacks attached to the Deferred of an in-flight ClusterStatus: the
`lambda _: None` errback added in `_update_connection`, the
`finished_update` callback, and the coalescing re-broadcast lambda.  The
`addActionFinish` logging callback is pure logging and is not modelled. -/
inductive CB where
  | swallow
  | finishedUpdate (c : Conn)
  | coalesce (c : Conn)
  deriving DecidableEq, Repr

structure SState (D S : Type) where
  connections : List Conn
  inFlight : List (Conn × DeferredId × Bool)
  pending : List (DeferredId × List CB)
  sends : List (DeferredId × Conn × D × S)
  nextDeferred : DeferredId
  cache : Option (List (D ⊕ S))
  config : D
  clusterState : S
  endpointRunning : Bool
  listenerRegistered : Bool
  closeRequested : List Conn
  deriving DecidableEq, Repr

variable {D S : Type} [DecidableEq D] [DecidableEq S]

def cacheAdd {T : Type} [DecidableEq T] (x : T) (l : List T) : List T :=
  if x ∈ l then l else l ++ [x]

/-- Serializing the command's `configuration` and `state` arguments through
`CachingEncoder.encode` at `callRemote` time: when the cache is active the
two keys are memoized (in argument order); when inactive nothing is
recorded. -/
def populateCache (cfg : D) (stt : S) (st : SState D S) : SState D S :=
  { st with
      cache := st.cache.map
        (fun l => cacheAdd (Sum.inr stt) (cacheAdd (Sum.inl cfg) l)) }

/-- `ControlAMPService._update_connection` (lines 481-492), which sends
`ClusterStatusCommand` on the connection, swallows asynchronous errors via
`d.result.addErrback(lambda _: None)`, and returns the Deferred.  Its
`action` parameter is immediately rebound inside the function, so the
value passed at the call site never influences behaviour and is not a
parameter here.  The environment choice `σ c = true` models `callRemote`
raising synchronously on connection `c` (after argument serialization). -/
def updateConnection (σ : Conn → Bool) (c : Conn) (cfg : D) (stt : S)
    (st : SState D S) : SState D S × Except PyErr DeferredId :=
  let st1 := populateCache cfg stt st
  if σ c then (st1, Except.error PyErr.sendError)
  else
    let d := st1.nextDeferred
    ({ st1 with
        nextDeferred := d + 1,
        sends := st1.sends ++ [(d, c, cfg, stt)],
        pending := dictInsert d [CB.swallow] st1.pending },
      Except.ok d)

/-- One iteration of the broadcast loop of
`_send_state_to_connections` (lines 453-479) for a single connection, in
the variant with the unbound-name slip repaired: the source's first-send
branch evaluates the unbound name `action` (see `sendToFaithful`); since
`_update_connection` immediately rebinds `action`, repairing the slip
changes nothing else.  The first-send branch sends and records
`(current_command, False)` plus the `finished_update` callback; the
coalescing branch attaches one re-broadcast callback and flips the flag. -/
def sendTo (σ : Conn → Bool) (cfg : D) (stt : S) (st : SState D S)
    (c : Conn) : SState D S × Option PyErr :=
  match dictLookup c st.inFlight with
  | none =>
    match updateConnection σ c cfg stt st with
    | (st1, Except.error e) => (st1, some e)
    | (st1, Except.ok d) =>
      let st2 := { st1 with inFlight := dictInsert c (d, false) st1.inFlight }
      ({ st2 with
          pending := dictModify d (fun cbs => cbs ++ [CB.finishedUpdate c])
            st2.pending },
        none)
  | some (d, already) =>
    if already then (st, none)
    else
      let st1 := { st with
        pending := dictModify d (fun cbs => cbs ++ [CB.coalesce c])
          st.pending }
      ({ st1 with inFlight := dictInsert c (d, true) st1.inFlight }, none)

/-- One iteration of the broadcast loop exactly as written in the source:
the first-send branch evaluates the unbound name `action` in
`self._update_connection(connection, configuration, state, action)` and
raises `NameError` before `_update_connection` (and hence `callRemote`)
runs; the coalescing branch is as in `sendTo`. -/
def sendToFaithful (cfg : D) (stt : S) (st : SState D S) (c : Conn) :
    SState D S × Option PyErr :=
  match dictLookup c st.inFlight with
  | none => (st, some (PyErr.nameError "action"))
  | some (d, already) =>
    if already then (st, none)
    else
      let st1 := { st with
        pending := dictModify d (fun cbs => cbs ++ [CB.coalesce c])
          st.pending }
      ({ st1 with inFlight := dictInsert c (d, true) st1.inFlight }, none)

def sendLoop (σ : Conn → Bool) (cfg : D) (stt : S) :
    List Conn → SState D S → SState D S × Option PyErr
  | [], st => (st, none)
  | c :: rest, st =>
    match sendTo σ cfg stt st c with
    | (st1, none) => sendLoop σ cfg stt rest st1
    | (st1, some e) => (st1, some e)

def sendLoopFaithful (cfg : D) (stt : S) :
    List Conn → SState D S → SState D S × Option PyErr
  | [], st => (st, none)
  | c :: rest, st =>
    match sendToFaithful cfg stt st c with
    | (st1, none) => sendLoopFaithful cfg stt rest st1
    | (st1, some e) => (st1, some e)

/-- `CachingEncoder.cache` (lines 151-158): the generator-based context
manager sets `self._cache = {}`, yields, and sets `self._cache = None`.
There is no try/finally, so when the scoped block raises, the exception is
thrown into the generator at the yield and the reset line never runs: the
cache is left exactly as the block left it. -/
def cacheScope (body : SState D S → SState D S × Option PyErr)
    (st : SState D S) : SState D S × Option PyErr :=
  match body { st with cache := some [] } with
  | (st2, none) => ({ st2 with cache := none }, none)
  | (st2, some e) => (st2, some e)

/-- `ControlAMPService._send_state_to_connections` (lines 442-479), slip
repaired as in `sendTo`: snapshot configuration and state once, enter the
encoding-cache scope, loop over the targets. -/
def sendStateToConnections (σ : Conn → Bool) (targets : List Conn)
    (st : SState D S) : SState D S × Option PyErr :=
  let configuration := st.config
  let state := st.clusterState
  cacheScope (fun st1 => sendLoop σ configuration state targets st1) st

/-- `_send_state_to_connections` exactly as written (with the `action`
`NameError` in the first-send branch). -/
def sendStateToConnectionsFaithful (targets : List Conn) (st : SState D S) :
    SState D S × Option PyErr :=
  let configuration := st.config
  let state := st.clusterState
  cacheScope (fun st1 => sendLoopFaithful configuration state targets st1) st

/-- Running one callback of a fired Deferred under twisted's chain rules:
a callback runs on a success and passes failures through, the errback
`lambda _: None` turns any failure into a success, and an exception inside
a callback turns the result into a failure.  `resend` is
`self._send_state_to_connections([connection])` as captured by the
coalescing lambda. -/
def runCB (resend : Conn → SState D S → SState D S × Option PyErr)
    (cb : CB) (res : Option PyErr) (st : SState D S) :
    SState D S × Option PyErr :=
  match cb, res with
  | CB.swallow, _ => (st, none)
  | CB.finishedUpdate c, none =>
    match dictLookup c st.inFlight with
    | some _ => ({ st with inFlight := dictErase c st.inFlight }, none)
    | none => (st, some PyErr.keyError)
  | CB.finishedUpdate _, some e => (st, some e)
  | CB.coalesce c, none => resend c st
  | CB.coalesce _, some e => (st, some e)

def runChain (resend : Conn → SState D S → SState D S × Option PyErr) :
    List CB → Option PyErr → SState D S → SState D S × Option PyErr
  | [], res, st => (st, res)
  | cb :: rest, res, st =>
    match runCB resend cb res st with
    | (st1, res1) => runChain resend rest res1 st1

/-- The reply of the in-flight ClusterStatus on Deferred `d` arrives
(`res = none`: success; `res = some e`: the remote side failed) and the
attached callback chain runs. -/
def fire (resend : Conn → SState D S → SState D S × Option PyErr)
    (d : DeferredId) (res : Option PyErr) (st : SState D S) :
    SState D S × Option PyErr :=
  match dictLookup d st.pending with
  | none => (st, none)
  | some cbs => runChain resend cbs res { st with pending := dictErase d st.pending }

def resend (σ : Conn → Bool) : Conn → SState D S → SState D S × Option PyErr :=
  fun c st => sendStateToConnections σ [c] st

def resendFaithful : Conn → SState D S → SState D S × Option PyErr :=
  fun c st => sendStateToConnectionsFaithful [c] st

/-- `ControlAMPService.__init__` (lines 407-432): empty connection set and
in-flight map, and the configuration-change listener registered with the
persistence service. -/
def mkService (d0 : D) (s0 : S) : SState D S :=
  { connections := [], inFlight := [], pending := [], sends := [],
    nextDeferred := 0, cache := none, config := d0, clusterState := s0,
    endpointRunning := false, listenerRegistered := true,
    closeRequested := [] }

def startService (st : SState D S) : SState D S :=
  { st with endpointRunning := true }

/-- `ControlAMPService.stopService` (lines 437-440): stop the endpoint
service and call `transport.loseConnection()` on every connection.  The
listener registered in `__init__` is not touched. -/
def stopService (st : SState D S) : SState D S :=
  { st with endpointRunning := false, closeRequested := st.connections }

def setAdd (c : Conn) (l : List Conn) : List Conn :=
  if c ∈ l then l else l ++ [c]

/-- `ControlAMPService.connected` (lines 494-502), slip repaired. -/
def connected (σ : Conn → Bool) (c : Conn) (st : SState D S) :
    SState D S × Option PyErr :=
  sendStateToConnections σ [c] { st with connections := setAdd c st.connections }

/-- `ControlAMPService.connected` exactly as written. -/
def connectedFaithful (c : Conn) (st : SState D S) :
    SState D S × Option PyErr :=
  sendStateToConnectionsFaithful [c]
    { st with connections := setAdd c st.connections }

/-- `ControlAMPService.disconnected` (lines 504-510). -/
def disconnectedSvc (c : Conn) (st : SState D S) : SState D S :=
  { st with connections := st.connections.erase c }

/-- A configuration change committed by the persistence service: the new
configuration becomes visible to `get()` and the listener registered in
`__init__` runs `self._send_state_to_connections(self.connections)` (slip
repaired). -/
def configChanged (σ : Conn → Bool) (d1 : D) (st : SState D S) :
    SState D S × Option PyErr :=
  sendStateToConnections σ { st with config := d1 }.connections
    { st with config := d1 }

/-- A configuration change with the broadcast exactly as written. -/
def configChangedFaithful (d1 : D) (st : SState D S) :
    SState D S × Option PyErr :=
  sendStateToConnectionsFaithful { st with config := d1 }.connections
    { st with config := d1 }

/-- `ControlAMPService.node_changed` (lines 512-522): the aggregator
absorbs the changes (its result is abstracted as the new snapshot `s1`)
and all current connections are broadcast to (slip repaired). -/
def nodeChanged (σ : Conn → Bool) (s1 : S) (st : SState D S) :
    SState D S × Option PyErr :=
  sendStateToConnections σ { st with clusterState := s1 }.connections
    { st with clusterState := s1 }

/-- C1: connect-time push.  Evidence that the claim fails on the code as
written: with configuration `D0 = 0` and state `S0 = 0`, a fresh agent
connection `7` is inserted into `connections`, but the scheduled broadcast
to `{7}` takes the first-send branch, which evaluates the unbound name
`action` and raises `NameError` before `callRemote`; no `ClusterStatus`
at all is sent (and the encoding cache is left armed). -/
theorem claim_C1_connect_push_namerror :
    (connectedFaithful 7 (startService (mkService (0 : Nat) (0 : Nat)))).2 =
      some (PyErr.nameError "action") ∧
    (connectedFaithful 7
        (startService (mkService (0 : Nat) (0 : Nat)))).1.connections =
      [7] ∧
    (connectedFaithful 7
        (startService (mkService (0 : Nat) (0 : Nat)))).1.sends = [] ∧
    (connectedFaithful 7
        (startService (mkService (0 : Nat) (0 : Nat)))).1.cache = some [] := by
  decide

/-- The state granted by C2's hypothesis: connection `5` has one
ClusterStatus in flight (Deferred `0`, sent with configuration `100` and
state `200`) whose reply has not yet arrived, with the callbacks exactly
as the first-send branch leaves them and `already_scheduled = False`. -/
def c2Start : SState Nat Nat :=
  { connections := [5], inFlight := [(5, (0, false))],
    pending := [(0, [CB.swallow, CB.finishedUpdate 5])],
    sends := [(0, 5, 100, 200)], nextDeferred := 1, cache := none,
    config := 100, clusterState := 200, endpointRunning := true,
    listenerRegistered := true, closeRequested := [] }

/-- The state after the configuration changes to `101`, `102` and `103`
in quick succession, each committed change broadcasting to all current
connections while the reply of Deferred `0` is still held. -/
def c2AfterChanges : SState Nat Nat :=
  (configChangedFaithful 103
    (configChangedFaithful 102
      (configChangedFaithful 101 c2Start).1).1).1

/-- C2: coalescing while a ClusterStatus is in flight.  The three
broadcasts are indeed coalesced into exactly one re-broadcast callback on
the held Deferred, and the configuration has advanced to `103`; but when
the held reply completes, `finished_update` first removes the in-flight
entry and the coalescing callback then re-enters
`_send_state_to_connections([5])`, whose first-send branch raises
`NameError` on the unbound `action`: zero follow-up ClusterStatus
commands are sent instead of exactly one carrying `103`. -/
theorem claim_C2_coalesce_namerror :
    c2AfterChanges.pending =
      [(0, [CB.swallow, CB.finishedUpdate 5, CB.coalesce 5])] ∧
    c2AfterChanges.config = 103 ∧
    c2AfterChanges.sends = [(0, 5, 100, 200)] ∧
    (fire resendFaithful 0 none c2AfterChanges).2 =
      some (PyErr.nameError "action") ∧
    (fire resendFaithful 0 none c2AfterChanges).1.sends =
      [(0, 5, 100, 200)] ∧
    (fire resendFaithful 0 none c2AfterChanges).1.inFlight = [] := by
  decide

/-! ## Behaviour of the repaired broadcast under a failure-free transport -/

theorem sendTo_ok (cfg : D) (stt : S) (st : SState D S) (c : Conn) :
    (sendTo (fun _ => false) cfg stt st c).2 = none := by
  rcases h : dictLookup c st.inFlight with _ | ⟨d, b⟩
  · simp [sendTo, updateConnection, h]
  · cases b <;> simp [sendTo, h]

theorem sendTo_sends_fresh (cfg : D) (stt : S) (st : SState D S) (c : Conn)
    (h : dictLookup c st.inFlight = none) :
    (sendTo (fun _ => false) cfg stt st c).1.sends =
      st.sends ++ [(st.nextDeferred, c, cfg, stt)] := by
  simp [sendTo, updateConnection, populateCache, h]

theorem sendTo_sends_inflight (cfg : D) (stt : S) (st : SState D S)
    (c : Conn) (d : DeferredId) (b : Bool)
    (h : dictLookup c st.inFlight = some (d, b)) :
    (sendTo (fun _ => false) cfg stt st c).1.sends = st.sends := by
  cases b <;> simp [sendTo, h]

theorem sendTo_inFlight_other (cfg : D) (stt : S) (st : SState D S)
    (c c2 : Conn) (hne : c2 ≠ c) :
    dictLookup c2 (sendTo (fun _ => false) cfg stt st c).1.inFlight =
      dictLookup c2 st.inFlight := by
  rcases h : dictLookup c st.inFlight with _ | ⟨d, b⟩
  · simp [sendTo, updateConnection, populateCache, h,
      dictLookup_dictInsert_ne (Ne.symm hne)]
  · cases b <;>
      simp [sendTo, h, dictLookup_dictInsert_ne (Ne.symm hne)]

/-- Under a transport that never raises synchronously, the broadcast loop
finishes without error, only appends to the send trace, and delivers one
`ClusterStatus` with the snapshotted pair to every target that had no
command in flight. -/
theorem sendLoop_spec_ok (cfg : D) (stt : S) : ∀ (targets : List Conn)
    (st : SState D S),
    (sendLoop (fun _ => false) cfg stt targets st).2 = none ∧
    (∃ suffix, (sendLoop (fun _ => false) cfg stt targets st).1.sends =
      st.sends ++ suffix) ∧
    ∀ c ∈ targets, dictLookup c st.inFlight = none →
      ∃ d, (d, c, cfg, stt) ∈
        (sendLoop (fun _ => false) cfg stt targets st).1.sends := by
  intro targets
  induction targets with
  | nil =>
    intro st
    refine ⟨rfl, ⟨[], by simp [sendLoop]⟩, ?_⟩
    intro c hc
    simp at hc
  | cons c0 rest ih =>
    intro st
    rcases hst : sendTo (fun _ => false) cfg stt st c0 with ⟨st1, e⟩
    have he : e = none := by
      have h2 := sendTo_ok cfg stt st c0
      rw [hst] at h2
      exact h2
    subst he
    have hloop : sendLoop (fun _ => false) cfg stt (c0 :: rest) st =
        sendLoop (fun _ => false) cfg stt rest st1 := by
      simp [sendLoop, hst]
    rw [hloop]
    obtain ⟨ihok, ⟨suf, hsuf⟩, ihdel⟩ := ih st1
    have hpre : ∃ s0, st1.sends = st.sends ++ s0 := by
      rcases hl : dictLookup c0 st.inFlight with _ | ⟨d, b⟩
      · have h1 := sendTo_sends_fresh cfg stt st c0 hl
        rw [hst] at h1
        exact ⟨_, h1⟩
      · have h1 := sendTo_sends_inflight cfg stt st c0 d b hl
        rw [hst] at h1
        exact ⟨[], by simpa using h1⟩
    refine ⟨ihok, ?_, ?_⟩
    · obtain ⟨s0, hs0⟩ := hpre
      exact ⟨s0 ++ suf, by rw [hsuf, hs0, List.append_assoc]⟩
    · intro c hc hnone
      have hsent : c = c0 → ∃ d, (d, c, cfg, stt) ∈
          (sendLoop (fun _ => false) cfg stt rest st1).1.sends := by
        intro hceq
        subst hceq
        have h1 := sendTo_sends_fresh cfg stt st c hnone
        rw [hst] at h1
        refine ⟨st.nextDeferred, ?_⟩
        rw [hsuf, h1]
        simp
      rcases List.mem_cons.mp hc with hceq | hcrest
      · exact hsent hceq
      · by_cases hcc : c = c0
        · exact hsent hcc
        · have hpres := sendTo_inFlight_other cfg stt st c0 c hcc
          rw [hst] at hpres
          exact ihdel c hcrest (hpres.trans hnone)

/-- Under a failure-free transport a whole `_send_state_to_connections`
completes without exception and the encoding cache is reset to inactive. -/
theorem sendState_ok (targets : List Conn) (st : SState D S) :
    (sendStateToConnections (fun _ => false) targets st).2 = none ∧
    (sendStateToConnections (fun _ => false) targets st).1.cache = none := by
  simp only [sendStateToConnections, cacheScope]
  rcases hb : sendLoop (fun _ => false) st.config st.clusterState targets
      { st with cache := some [] } with ⟨st2, e⟩
  have he : e = none := by
    have h2 := (sendLoop_spec_ok st.config st.clusterState targets
      { st with cache := some [] }).1
    rw [hb] at h2
    exact h2
  subst he
  simp

/-- The callback list of an in-flight ClusterStatus Deferred: the swallow
errback and `finished_update`, plus the coalescing callback when
`already_scheduled` is set. -/
def chainShape (c : Conn) (b : Bool) : List CB :=
  if b then [CB.swallow, CB.finishedUpdate c, CB.coalesce c]
  else [CB.swallow, CB.finishedUpdate c]

/-- C6 counterexample: the claim that the encoding cache returns to the
inactive (`None`) state on *every* exit path of `cache()`, including exit
by an exception, is false.  A broadcast in which `callRemote` raises
synchronously on the (fresh) connection `1` exits the scope by exception
after the two arguments were serialized and cached; the generator-based
context manager has no try/finally, so the cache stays active and
populated. -/
theorem claim_C6_cache_scope_counterexample :
    (sendStateToConnections (fun c => c == 1) [1]
        (startService (mkService (50 : Nat) (60 : Nat)))).2 =
      some PyErr.sendError ∧
    (sendStateToConnections (fun c => c == 1) [1]
        (startService (mkService (50 : Nat) (60 : Nat)))).1.cache =
      some [Sum.inl 50, Sum.inr 60] := by
  decide

/-- C6 amended: entering `cache()` arms an empty cache; on a normal exit
of the scoped block every cached entry is dropped and the cache returns to
inactive (shown for a whole failure-free broadcast); but on an exceptional
exit the reset is skipped and the cache remains active exactly as the
block left it (shown for the real error path of the source, the
first-send `NameError`, which leaves an armed empty cache). -/
theorem claim_C6_cache_scope_amended (targets : List Conn)
    (st : SState D S) :
    ((sendStateToConnections (fun _ => false) targets st).1.cache = none ∧
     (sendStateToConnections (fun _ => false) targets st).2 = none) ∧
    ∀ c, dictLookup c st.inFlight = none →
      (sendStateToConnectionsFaithful [c] st).1.cache = some [] ∧
      (sendStateToConnectionsFaithful [c] st).2 =
        some (PyErr.nameError "action") := by
  refine ⟨⟨(sendState_ok targets st).2, (sendState_ok targets st).1⟩, ?_⟩
  intro c hnone
  simp [sendStateToConnectionsFaithful, cacheScope, sendLoopFaithful,
    sendToFaithful, hnone]

theorem claim_C6_cache_scope_amended_witness :
    dictLookup 3 (startService (mkService (1 : Nat) (2 : Nat))).inFlight =
      none ∧
    (sendStateToConnectionsFaithful [3]
        (startService (mkService (1 : Nat) (2 : Nat)))).1.cache = some [] :=
  ⟨rfl,
    ((claim_C6_cache_scope_amended [4]
      (startService (mkService (1 : Nat) (2 : Nat)))).2 3 rfl).1⟩

/-- C7 counterexample, on the source exactly as written: the claim that a
send failure on one connection (including a synchronous raise in the send
path) never prevents the remaining targets from being sent their
ClusterStatus is false.  With fresh connections `1` and `2`, the send
attempt on `1` raises synchronously — the `NameError` on the unbound
`action` of the first-send branch — the loop aborts with the exception,
no ClusterStatus is sent to anyone, and `2` in particular is never sent
anything. -/
theorem claim_C7_broadcast_isolation_counterexample :
    (sendStateToConnectionsFaithful [1, 2]
        (startService (mkService (3 : Nat) (4 : Nat)))).2 =
      some (PyErr.nameError "action") ∧
    (sendStateToConnectionsFaithful [1, 2]
        (startService (mkService (3 : Nat) (4 : Nat)))).1.sends = [] := by
  decide

theorem sendToFaithful_inflight_effect (cfg : D) (stt : S)
    (st : SState D S) (c : Conn) (d0 : DeferredId) (b0 : Bool)
    (hl : dictLookup c st.inFlight = some (d0, b0)) :
    (sendToFaithful cfg stt st c).2 = none ∧
    (sendToFaithful cfg stt st c).1.sends = st.sends ∧
    ∀ c2, (dictLookup c2 (sendToFaithful cfg stt st c).1.inFlight).isSome =
      (dictLookup c2 st.inFlight).isSome := by
  cases b0
  · refine ⟨by simp [sendToFaithful, hl], by simp [sendToFaithful, hl], ?_⟩
    intro c2
    by_cases hc : c2 = c
    · subst hc
      simp [sendToFaithful, hl, dictLookup_dictInsert_self]
    · simp [sendToFaithful, hl,
        dictLookup_dictInsert_ne (fun hh => hc hh.symm)]
  · simp [sendToFaithful, hl]

/-- The broadcast loop of the source processes targets whose ClusterStatus
is already in flight without raising and without sending: the coalescing
branch only attaches a callback and flips `already_scheduled`. -/
theorem sendLoopFaithful_inflight (cfg : D) (stt : S) :
    ∀ (targets : List Conn) (st : SState D S),
    (∀ c2 ∈ targets, (dictLookup c2 st.inFlight).isSome = true) →
    (sendLoopFaithful cfg stt targets st).2 = none ∧
    (sendLoopFaithful cfg stt targets st).1.sends = st.sends ∧
    ∀ c2, (dictLookup c2
        (sendLoopFaithful cfg stt targets st).1.inFlight).isSome =
      (dictLookup c2 st.inFlight).isSome := by
  intro targets
  induction targets with
  | nil => intro st _; exact ⟨rfl, rfl, fun c2 => rfl⟩
  | cons c0 rest ih =>
    intro st h
    have h0 := h c0 (List.mem_cons_self _ _)
    rcases hl : dictLookup c0 st.inFlight with _ | ⟨d0, b0⟩
    · rw [hl] at h0
      simp at h0
    · obtain ⟨he, hs, hifs⟩ :=
        sendToFaithful_inflight_effect cfg stt st c0 d0 b0 hl
      rcases hst : sendToFaithful cfg stt st c0 with ⟨st1, e⟩
      have he2 : e = none := by rw [hst] at he; exact he
      subst he2
      have hstep : sendLoopFaithful cfg stt (c0 :: rest) st =
          sendLoopFaithful cfg stt rest st1 := by
        simp [sendLoopFaithful, hst]
      rw [hstep]
      have hs2 : st1.sends = st.sends := by rw [hst] at hs; exact hs
      have hifs2 : ∀ c2, (dictLookup c2 st1.inFlight).isSome =
          (dictLookup c2 st.inFlight).isSome := by
        rw [hst] at hifs
        exact hifs
      have hrest : ∀ c2 ∈ rest, (dictLookup c2 st1.inFlight).isSome =
          true := by
        intro c2 hc2
        exact (hifs2 c2).trans (h c2 (List.mem_cons_of_mem _ hc2))
      obtain ⟨ih1, ih2, ih3⟩ := ih st1 hrest
      exact ⟨ih1, ih2.trans hs2, fun c2 => (ih3 c2).trans (hifs2 c2)⟩

/-- C7 amended, on the source exactly as written: one broadcast invocation
aborts with the unbound-`action` `NameError` at its first target with no
command in flight — before `callRemote` — so all remaining targets are
skipped and the invocation sends nothing to anyone (a synchronous
exception in the send path on one connection does prevent the rest, as the
source's XXX comment at lines 453-459 concedes for synchronous raises);
targets whose ClusterStatus is already in flight are processed
independently, without exception and without new sends (coalescing only);
and an asynchronous rejection of an in-flight, unscheduled reply is
swallowed by the `lambda _: None` errback: `finished_update` still runs,
the in-flight entry is removed, and no failure comes out of the chain. -/
theorem claim_C7_broadcast_isolation_amended (rest : List Conn)
    (st : SState D S) (c : Conn) :
    (dictLookup c st.inFlight = none →
      (sendStateToConnectionsFaithful (c :: rest) st).2 =
        some (PyErr.nameError "action") ∧
      (sendStateToConnectionsFaithful (c :: rest) st).1.sends = st.sends) ∧
    ((∀ c2 ∈ rest, (dictLookup c2 st.inFlight).isSome = true) →
      (sendStateToConnectionsFaithful rest st).2 = none ∧
      (sendStateToConnectionsFaithful rest st).1.sends = st.sends) ∧
    ∀ (d0 : DeferredId) (e : PyErr), (dictKeys st.inFlight).Nodup →
      dictLookup c st.inFlight = some (d0, false) →
      dictLookup d0 st.pending = some (chainShape c false) →
      (fire resendFaithful d0 (some e) st).2 = none ∧
      dictLookup c (fire resendFaithful d0 (some e) st).1.inFlight =
        none := by
  refine ⟨?_, ?_, ?_⟩
  · intro hnone
    constructor <;>
      simp [sendStateToConnectionsFaithful, cacheScope, sendLoopFaithful,
        sendToFaithful, hnone]
  · intro hin
    simp only [sendStateToConnectionsFaithful, cacheScope]
    rcases hb : sendLoopFaithful st.config st.clusterState rest
        { st with cache := some [] } with ⟨st2, e⟩
    obtain ⟨h1, h2, _⟩ := sendLoopFaithful_inflight st.config
      st.clusterState rest { st with cache := some [] } hin
    rw [hb] at h1 h2
    have he : e = none := h1
    subst he
    exact ⟨rfl, by simpa using h2⟩
  · intro d0 e hnd hcif hpend
    have hfire : (fire resendFaithful d0 (some e) st).1 =
        { st with pending := dictErase d0 st.pending,
                  inFlight := dictErase c st.inFlight } := by
      simp [fire, hpend, chainShape, runChain, runCB, hcif]
    refine ⟨?_, ?_⟩
    · simp [fire, hpend, chainShape, runChain, runCB, hcif]
    · rw [hfire]
      exact dictLookup_dictErase_self hnd

/-- The state used to exercise C7's amended theorem: connection `9` has
one ClusterStatus in flight (Deferred `0`, not yet rescheduled) and
connection `8` is fresh. -/
def c7InFlight : SState Nat Nat :=
  { connections := [8, 9], inFlight := [(9, (0, false))],
    pending := [(0, [CB.swallow, CB.finishedUpdate 9])],
    sends := [(0, 9, 3, 4)], nextDeferred := 1, cache := none,
    config := 3, clusterState := 4, endpointRunning := true,
    listenerRegistered := true, closeRequested := [] }

theorem claim_C7_broadcast_isolation_amended_witness :
    dictLookup 8 c7InFlight.inFlight = none ∧
    (∀ c2 ∈ ([9] : List Conn),
      (dictLookup c2 c7InFlight.inFlight).isSome = true) ∧
    (sendStateToConnectionsFaithful [8, 9] c7InFlight).2 =
      some (PyErr.nameError "action") ∧
    (sendStateToConnectionsFaithful [9] c7InFlight).2 = none ∧
    (fire resendFaithful 0 (some PyErr.sendError) c7InFlight).2 = none :=
  ⟨rfl, by decide,
    ((claim_C7_broadcast_isolation_amended [9] c7InFlight 8).1 rfl).1,
    ((claim_C7_broadcast_isolation_amended [9] c7InFlight 8).2.1
      (by decide)).1,
    ((claim_C7_broadcast_isolation_amended [] c7InFlight 9).2.2 0
      PyErr.sendError (by decide) rfl rfl).1⟩

/-- The service state used to refute C8: a control service that accepted
connection `1`, completed its connect-time ClusterStatus (Deferred `0`),
and was then stopped. -/
def c8Stopped : SState Nat Nat :=
  stopService
    (fire (resend (fun _ => false)) 0 none
      (connected (fun _ => false) 1
        (startService (mkService (0 : Nat) (0 : Nat)))).1).1

/-- C8 counterexample: the configuration-change callback registered in
`__init__` is *not* de-registered by `stopService` (nothing in the code
ever de-registers it), and a configuration change committed after
`stopService` — while the close of the transports is still pending — still
triggers a broadcast from the stopped service: a new ClusterStatus
carrying the new configuration `999` is sent to connection `1`. -/
theorem claim_C8_shutdown_counterexample :
    c8Stopped.listenerRegistered = true ∧
    c8Stopped.endpointRunning = false ∧
    (configChanged (fun _ => false) 999 c8Stopped).1.sends =
      [(0, 1, 0, 0), (1, 1, 999, 0)] := by
  decide

/-- C8 amended: `stopService` stops the endpoint service and requests the
close of every live connection's transport, but the listener registered in
`__init__` stays registered and the connection registry is untouched (its
entries are only removed when each transport's close later drives
`disconnected`), so a configuration change committed after `stopService`
still runs the broadcast callback of the stopped service. -/
theorem claim_C8_shutdown_amended (d0 : D) (s0 : S) (st : SState D S) :
    (stopService st).listenerRegistered = st.listenerRegistered ∧
    (stopService st).endpointRunning = false ∧
    (stopService st).closeRequested = st.connections ∧
    (stopService st).connections = st.connections ∧
    (mkService d0 s0).listenerRegistered = true :=
  ⟨rfl, rfl, rfl, rfl, rfl⟩

/-! ## Inbound dispatch and the per-connection change source (C9) -/

/-- Modelled from the spec: `ChangeSource` lives in
`flocker/control/_model.py`, which is not among the sources here.  Per
spec section 4.6 it is a per-connection identity whose `last_activity` is
in monotonic seconds, and `set_last_activity(t)` is idempotent and
monotonically non-decreasing — replays with a smaller `t` are ignored. -/
structure ChangeSource where
  lastActivity : Nat
  deriving DecidableEq, Repr

/-- Modelled from the spec: `ChangeSource.set_last_activity` (spec section
4.6), keeping the maximum of the current value and the new reading. -/
def setLastActivity (t : Nat) (s : ChangeSource) : ChangeSource :=
  if t < s.lastActivity then s else { lastActivity := t }

/-- Observable events of dispatching one inbound command through
`ControlServiceLocator.locateResponder` (lines 297-302): the locator
records the activity and then the responder it returns is invoked by the
AMP machinery. -/
inductive DispatchEv where
  | activityRecorded (t : Nat)
  | responderInvoked (cmd : String)
  deriving DecidableEq, Repr

/-- One inbound command dispatch: `locateResponder` executes
`self._source.set_last_activity(self._reactor.seconds())` and only then
hands out the responder for `name`, which the connection invokes. -/
def dispatchCommand (now : Nat) (cmd : String) (s : ChangeSource) :
    ChangeSource × List DispatchEv :=
  (setLastActivity now s,
    [DispatchEv.activityRecorded now, DispatchEv.responderInvoked cmd])

def runDispatches : List (Nat × String) → ChangeSource →
    ChangeSource × List DispatchEv
  | [], s => (s, [])
  | (t, cmd) :: rest, s =>
    let p := dispatchCommand t cmd s
    let q := runDispatches rest p.1
    (q.1, p.2 ++ q.2)

/-- The successive values of `last_activity` observed after each inbound
command dispatch. -/
def lastActivityTrace : List (Nat × String) → ChangeSource → List Nat
  | [], _ => []
  | (t, _) :: rest, s =>
    let s1 := setLastActivity t s
    s1.lastActivity :: lastActivityTrace rest s1

theorem runDispatches_events (cmds : List (Nat × String)) :
    ∀ s0 : ChangeSource, (runDispatches cmds s0).2 =
      (cmds.map (fun p => [DispatchEv.activityRecorded p.1,
        DispatchEv.responderInvoked p.2])).flatten := by
  induction cmds with
  | nil => intro s0; rfl
  | cons p rest ih =>
    intro s0
    obtain ⟨t, cmd⟩ := p
    simp only [runDispatches, dispatchCommand, List.map_cons,
      List.flatten_cons]
    rw [ih]

/-- C9: for every inbound command dispatched on a control-service
connection (NoOp pings included), the connection's
`ChangeSource.last_activity` update happens before the responder is
invoked; and over any sequence of dispatches whose clock readings are
non-decreasing (the reactor clock is monotonic), `last_activity` equals
the clock reading of each dispatch and is non-decreasing over the
connection's lifetime. -/
theorem claim_C9_last_activity (cmds : List (Nat × String))
    (s0 : ChangeSource)
    (hmono : List.Chain' (· ≤ ·) (s0.lastActivity :: cmds.map Prod.fst)) :
    (runDispatches cmds s0).2 =
      (cmds.map (fun p => [DispatchEv.activityRecorded p.1,
        DispatchEv.responderInvoked p.2])).flatten ∧
    lastActivityTrace cmds s0 = cmds.map Prod.fst ∧
    List.Chain' (· ≤ ·) (s0.lastActivity :: lastActivityTrace cmds s0) := by
  refine ⟨runDispatches_events cmds s0, ?_⟩
  induction cmds generalizing s0 with
  | nil => exact ⟨rfl, List.chain'_singleton _⟩
  | cons p rest ih =>
    obtain ⟨t, cmd⟩ := p
    simp only [List.map_cons, List.chain'_cons] at hmono
    obtain ⟨hle, hmono2⟩ := hmono
    have hset : setLastActivity t s0 = { lastActivity := t } := by
      simp [setLastActivity]
      omega
    have ih2 := ih ({ lastActivity := t } : ChangeSource) hmono2
    simp only [lastActivityTrace, hset, List.map_cons]
    exact ⟨by rw [ih2.1], List.chain'_cons.mpr ⟨hle, ih2.2⟩⟩

theorem claim_C9_last_activity_witness :
    List.Chain' (· ≤ ·) ((⟨0⟩ : ChangeSource).lastActivity ::
      ([((1 : Nat), "NoOp"), (2, "NodeState")].map Prod.fst)) ∧
    lastActivityTrace [(1, "NoOp"), (2, "NodeState")] ⟨0⟩ = [1, 2] :=
  ⟨by simp [List.chain'_cons],
    (claim_C9_last_activity [(1, "NoOp"), (2, "NodeState")] ⟨0⟩
      (by simp [List.chain'_cons])).2.1⟩

/-! ## C3: at-most-one in-flight ClusterStatus per connection

The proof is over the repaired broadcast (`sendTo`; see the doc comments
there and on `sendToFaithful`: the only difference from the source is that
the first-send branch does not raise `NameError` on the dead `action`
argument — in the unrepaired code the branch raises before `callRemote`,
so the in-flight map never grows and the invariant holds a fortiori). -/

theorem lookup_isSome_of_mem_keys {κ α : Type} [DecidableEq κ] {k : κ}
    {l : List (κ × α)} (h : k ∈ dictKeys l) :
    (dictLookup k l).isSome := by
  induction l with
  | nil => simp [dictKeys] at h
  | cons p rest ih =>
    by_cases he : p.1 = k
    · simp [dictLookup, he]
    · simp only [dictKeys, List.map_cons, List.mem_cons] at h
      rcases h with h1 | h2
      · exact absurd h1.symm he
      · simp only [dictLookup, if_neg he]
        exact ih h2

theorem not_mem_keys_of_dictLookup_eq_none {κ α : Type} [DecidableEq κ]
    {k : κ} {l : List (κ × α)} (h : dictLookup k l = none) :
    k ∉ dictKeys l := by
  intro hm
  have := lookup_isSome_of_mem_keys hm
  rw [h] at this
  simp at this

theorem dictModify_append_self {κ α : Type} [DecidableEq κ] {k : κ} {v : α}
    {f : α → α} {l : List (κ × α)} (h : k ∉ dictKeys l) :
    dictModify k f (l ++ [(k, v)]) = l ++ [(k, f v)] := by
  induction l with
  | nil => simp [dictModify]
  | cons p rest ih =>
    simp only [dictKeys, List.map_cons, List.mem_cons, not_or] at h
    have hne : p.1 ≠ k := fun he => h.1 he.symm
    simp only [List.cons_append, dictModify, if_neg hne, List.cons.injEq,
      true_and]
    exact ih h.2

theorem chainShape_inj {c c2 : Conn} {b b2 : Bool}
    (h : chainShape c b = chainShape c2 b2) : c = c2 ∧ b = b2 := by
  cases b <;> cases b2 <;> simp [chainShape] at h <;> simp_all

/-- The invariant of the fan-out engine: in-flight map, pending-Deferred
map and send trace have pairwise distinct keys bounded by the Deferred
counter; every in-flight entry points to a live Deferred carrying exactly
the callbacks of its state and to a recorded send on the same connection;
and every live Deferred is the in-flight command of exactly the
connection its callbacks name. -/
structure Inv (st : SState D S) : Prop where
  ifNodup : (dictKeys st.inFlight).Nodup
  pendNodup : (dictKeys st.pending).Nodup
  sendsNodup : (st.sends.map (fun e => e.1)).Nodup
  pendLt : ∀ q ∈ st.pending, q.1 < st.nextDeferred
  sendsLt : ∀ e ∈ st.sends, e.1 < st.nextDeferred
  ifPend : ∀ e ∈ st.inFlight,
    dictLookup e.2.1 st.pending = some (chainShape e.1 e.2.2)
  ifSend : ∀ e ∈ st.inFlight, ∃ p : D × S,
    (e.2.1, e.1, p.1, p.2) ∈ st.sends
  pendIF : ∀ q ∈ st.pending, ∃ c b,
    dictLookup c st.inFlight = some (q.1, b) ∧ q.2 = chainShape c b

theorem Inv.of_eq {st st2 : SState D S} (h : Inv st)
    (h1 : st2.inFlight = st.inFlight) (h2 : st2.pending = st.pending)
    (h3 : st2.sends = st.sends) (h4 : st2.nextDeferred = st.nextDeferred) :
    Inv st2 := by
  constructor
  · rw [h1]; exact h.ifNodup
  · rw [h2]; exact h.pendNodup
  · rw [h3]; exact h.sendsNodup
  · rw [h2, h4]; exact h.pendLt
  · rw [h3, h4]; exact h.sendsLt
  · rw [h1, h2]; exact h.ifPend
  · rw [h1, h3]; exact h.ifSend
  · rw [h2, h1]; exact h.pendIF

/-- The number of ClusterStatus commands on connection `c` that have been
sent but whose Deferred has not yet fired. -/
def outstanding (st : SState D S) (c : Conn) : Nat :=
  (st.sends.filter
    (fun e => decide (e.2.1 = c) && (dictLookup e.1 st.pending).isSome)).length

theorem Inv.atMostOne {st : SState D S} (hinv : Inv st) (c : Conn) :
    outstanding st c ≤ 1 := by
  have hkey : ∀ e ∈ st.sends.filter
      (fun e => decide (e.2.1 = c) && (dictLookup e.1 st.pending).isSome),
      ∃ b, dictLookup c st.inFlight = some (e.1, b) := by
    intro e he
    have hmem := List.mem_of_mem_filter he
    have hprop := List.of_mem_filter he
    simp only [Bool.and_eq_true, decide_eq_true_eq, Option.isSome_iff_exists]
      at hprop
    obtain ⟨hc, cbs, hcbs⟩ := hprop
    obtain ⟨c2, b, hcif, hshape⟩ :=
      hinv.pendIF (e.1, cbs) (mem_of_dictLookup_eq_some hcbs)
    have hifmem := mem_of_dictLookup_eq_some hcif
    obtain ⟨p, hp⟩ := hinv.ifSend (c2, e.1, b) hifmem
    have hsame : e = (e.1, c2, p.1, p.2) :=
      List.inj_on_of_nodup_map hinv.sendsNodup hmem hp rfl
    have hproj : e.2.1 = c2 := congrArg (fun x => x.2.1) hsame
    exact ⟨b, (hproj.symm.trans hc) ▸ hcif⟩
  have hnodup : ((st.sends.filter
      (fun e => decide (e.2.1 = c) &&
        (dictLookup e.1 st.pending).isSome)).map (fun e => e.1)).Nodup :=
    hinv.sendsNodup.sublist (List.Sublist.map _ (List.filter_sublist _))
  rcases hfl : st.sends.filter
      (fun e => decide (e.2.1 = c) && (dictLookup e.1 st.pending).isSome)
    with _ | ⟨e1, rest⟩
  · simp [outstanding, hfl]
  · rcases rest with _ | ⟨e2, rest2⟩
    · simp [outstanding, hfl]
    · exfalso
      obtain ⟨b1, h1⟩ := hkey e1 (by rw [hfl]; exact List.mem_cons_self _ _)
      obtain ⟨b2, h2⟩ := hkey e2
        (by rw [hfl]; exact List.mem_cons_of_mem _ (List.mem_cons_self _ _))
      rw [hfl] at hnodup
      simp only [List.map_cons, List.nodup_cons, List.mem_cons] at hnodup
      have h12 := h1.symm.trans h2
      simp only [Option.some.injEq, Prod.mk.injEq] at h12
      exact hnodup.1 (Or.inl h12.1)

theorem sendTo_fresh_fields (σ : Conn → Bool) (cfg : D) (stt : S)
    (st : SState D S) (c : Conn) (hl : dictLookup c st.inFlight = none)
    (hσ : σ c = false) (hd : st.nextDeferred ∉ dictKeys st.pending) :
    (sendTo σ cfg stt st c).1.inFlight =
      st.inFlight ++ [(c, (st.nextDeferred, false))] ∧
    (sendTo σ cfg stt st c).1.pending =
      st.pending ++ [(st.nextDeferred, chainShape c false)] ∧
    (sendTo σ cfg stt st c).1.sends =
      st.sends ++ [(st.nextDeferred, c, cfg, stt)] ∧
    (sendTo σ cfg stt st c).1.nextDeferred = st.nextDeferred + 1 := by
  have hck : c ∉ dictKeys st.inFlight := not_mem_keys_of_dictLookup_eq_none hl
  simp [sendTo, updateConnection, populateCache, hl, hσ,
    dictInsert_eq_append_of_not_mem hck,
    dictInsert_eq_append_of_not_mem hd, dictModify_append_self hd,
    chainShape]

theorem sendTo_coalesce_fields (σ : Conn → Bool) (cfg : D) (stt : S)
    (st : SState D S) (c : Conn) (d0 : DeferredId)
    (hl : dictLookup c st.inFlight = some (d0, false)) :
    (sendTo σ cfg stt st c).1.inFlight =
      dictInsert c (d0, true) st.inFlight ∧
    (sendTo σ cfg stt st c).1.pending =
      dictModify d0 (fun cbs => cbs ++ [CB.coalesce c]) st.pending ∧
    (sendTo σ cfg stt st c).1.sends = st.sends ∧
    (sendTo σ cfg stt st c).1.nextDeferred = st.nextDeferred := by
  simp [sendTo, hl]

theorem sendTo_scheduled_eq (σ : Conn → Bool) (cfg : D) (stt : S)
    (st : SState D S) (c : Conn) (d0 : DeferredId)
    (hl : dictLookup c st.inFlight = some (d0, true)) :
    (sendTo σ cfg stt st c).1 = st := by
  simp [sendTo, hl]

theorem inv_sendTo (σ : Conn → Bool) (cfg : D) (stt : S) (st : SState D S)
    (c : Conn) (hinv : Inv st) : Inv (sendTo σ cfg stt st c).1 := by
  have hd : st.nextDeferred ∉ dictKeys st.pending := by
    intro hm
    obtain ⟨q, hq, hq1⟩ := List.mem_map.mp hm
    exact absurd hq1 (Nat.ne_of_lt (hinv.pendLt q hq))
  rcases hl : dictLookup c st.inFlight with _ | ⟨d0, already⟩
  · cases hσ : σ c
    · -- fresh connection, send succeeds
      obtain ⟨hif, hpend, hsends, hnext⟩ :=
        sendTo_fresh_fields σ cfg stt st c hl hσ hd
      have hck : c ∉ dictKeys st.inFlight :=
        not_mem_keys_of_dictLookup_eq_none hl
      have hds : st.nextDeferred ∉ st.sends.map (fun e => e.1) := by
        intro hm
        obtain ⟨e, he, he1⟩ := List.mem_map.mp hm
        exact absurd he1 (Nat.ne_of_lt (hinv.sendsLt e he))
      constructor
      · rw [hif]
        simp only [dictKeys, List.map_append, List.map_cons, List.map_nil]
        rw [List.nodup_append]
        refine ⟨hinv.ifNodup, List.nodup_singleton _, ?_⟩
        intro x hx hy
        simp only [List.mem_singleton] at hy
        exact hck (hy ▸ hx)
      · rw [hpend]
        simp only [dictKeys, List.map_append, List.map_cons, List.map_nil]
        rw [List.nodup_append]
        refine ⟨hinv.pendNodup, List.nodup_singleton _, ?_⟩
        intro x hx hy
        simp only [List.mem_singleton] at hy
        exact hd (hy ▸ hx)
      · rw [hsends]
        simp only [List.map_append, List.map_cons, List.map_nil]
        rw [List.nodup_append]
        refine ⟨hinv.sendsNodup, List.nodup_singleton _, ?_⟩
        intro x hx hy
        simp only [List.mem_singleton] at hy
        exact hds (hy ▸ hx)
      · rw [hpend, hnext]
        intro q hq
        rcases List.mem_append.mp hq with h1 | h2
        · exact Nat.lt_succ_of_lt (hinv.pendLt q h1)
        · simp only [List.mem_singleton] at h2
          rw [h2]
          exact Nat.lt_succ_self _
      · rw [hsends, hnext]
        intro e he
        rcases List.mem_append.mp he with h1 | h2
        · exact Nat.lt_succ_of_lt (hinv.sendsLt e h1)
        · simp only [List.mem_singleton] at h2
          rw [h2]
          exact Nat.lt_succ_self _
      · rw [hif, hpend]
        intro e he
        rcases List.mem_append.mp he with h1 | h2
        · rw [dictLookup_append, hinv.ifPend e h1]
        · simp only [List.mem_singleton] at h2
          subst h2
          rw [dictLookup_append,
            dictLookup_eq_none_of_not_mem_keys hd]
          simp [dictLookup]
      · rw [hif, hsends]
        intro e he
        rcases List.mem_append.mp he with h1 | h2
        · obtain ⟨p, hp⟩ := hinv.ifSend e h1
          exact ⟨p, List.mem_append_left _ hp⟩
        · simp only [List.mem_singleton] at h2
          subst h2
          exact ⟨(cfg, stt), List.mem_append_right _ (by simp)⟩
      · rw [hpend, hif]
        intro q hq
        rcases List.mem_append.mp hq with h1 | h2
        · obtain ⟨c2, b, hcif, hshape⟩ := hinv.pendIF q h1
          refine ⟨c2, b, ?_, hshape⟩
          rw [dictLookup_append, hcif]
        · simp only [List.mem_singleton] at h2
          subst h2
          refine ⟨c, false, ?_, rfl⟩
          rw [dictLookup_append, hl]
          simp [dictLookup]
    · -- fresh connection, callRemote raises synchronously: only the cache
      -- was touched
      have : (sendTo σ cfg stt st c).1 = populateCache cfg stt st := by
        simp [sendTo, updateConnection, hl, hσ]
      rw [this]
      exact Inv.of_eq hinv rfl rfl rfl rfl
  · cases already
    · -- first broadcast while in flight: attach the coalescing callback
      obtain ⟨hif, hpend, hsends, hnext⟩ :=
        sendTo_coalesce_fields σ cfg stt st c d0 hl
      have hcmem : (c, (d0, false)) ∈ st.inFlight :=
        mem_of_dictLookup_eq_some hl
      have hck : c ∈ dictKeys st.inFlight :=
        mem_keys_of_dictLookup_eq_some hl
      have hdpend : dictLookup d0 st.pending =
          some (chainShape c false) := hinv.ifPend (c, (d0, false)) hcmem
      have hdmem : (d0, chainShape c false) ∈ st.pending :=
        mem_of_dictLookup_eq_some hdpend
      constructor
      · rw [hif, dictKeys_dictInsert_of_mem hck]
        exact hinv.ifNodup
      · rw [hpend, dictKeys_dictModify]
        exact hinv.pendNodup
      · rw [hsends]
        exact hinv.sendsNodup
      · rw [hpend, hnext]
        intro q hq
        rcases mem_dictModify_of_nodup hinv.pendNodup hq with h1 | ⟨v, hv, hev⟩
        · exact hinv.pendLt q h1.1
        · have := hinv.pendLt (d0, v) (mem_of_dictLookup_eq_some hv)
          rw [hev]
          simpa using this
      · rw [hsends, hnext]
        exact hinv.sendsLt
      · rw [hif, hpend]
        intro e he
        rcases mem_dictInsert_of_nodup hinv.ifNodup he with h1 | ⟨h2, hne⟩
        · subst h1
          rw [dictLookup_dictModify_self, hdpend]
          simp [chainShape]
        · have hne2 : e.2.1 ≠ d0 := by
            intro heq
            have h3 := hinv.ifPend e h2
            rw [heq, hdpend] at h3
            injection h3 with h4
            exact hne (chainShape_inj h4).1.symm
          rw [dictLookup_dictModify_ne (fun hh => hne2 hh.symm)]
          exact hinv.ifPend e h2
      · rw [hif, hsends]
        intro e he
        rcases mem_dictInsert_of_nodup hinv.ifNodup he with h1 | ⟨h2, _⟩
        · subst h1
          exact hinv.ifSend (c, (d0, false)) hcmem
        · exact hinv.ifSend e h2
      · rw [hpend, hif]
        intro q hq
        rcases mem_dictModify_of_nodup hinv.pendNodup hq with h1 | ⟨v, hv, hev⟩
        · obtain ⟨c2, b, hcif, hshape⟩ := hinv.pendIF q h1.1
          have hc2 : c2 ≠ c := by
            intro heq
            rw [heq, hl] at hcif
            injection hcif with h5
            have h6 : d0 = q.1 := congrArg Prod.fst h5
            exact h1.2 h6.symm
          refine ⟨c2, b, ?_, hshape⟩
          rw [dictLookup_dictInsert_ne (fun hh => hc2 hh.symm)]
          exact hcif
        · have hvv : v = chainShape c false := by
            rw [hv] at hdpend
            exact Option.some.injEq _ _ ▸ hdpend.symm ▸ rfl
          refine ⟨c, true, ?_, ?_⟩
          · rw [dictLookup_dictInsert_self]
            have : q.1 = d0 := congrArg Prod.fst hev
            rw [this]
          · rw [hev, hvv]
            simp [chainShape]
    · rw [sendTo_scheduled_eq σ cfg stt st c d0 hl]
      exact hinv

theorem inv_sendLoop (σ : Conn → Bool) (cfg : D) (stt : S) :
    ∀ (targets : List Conn) (st : SState D S), Inv st →
    Inv (sendLoop σ cfg stt targets st).1 := by
  intro targets
  induction targets with
  | nil => intro st h; exact h
  | cons c rest ih =>
    intro st h
    rcases hst : sendTo σ cfg stt st c with ⟨st1, e⟩
    have h1 : Inv st1 := by
      have := inv_sendTo σ cfg stt st c h
      rw [hst] at this
      exact this
    cases e with
    | none =>
      have : sendLoop σ cfg stt (c :: rest) st =
          sendLoop σ cfg stt rest st1 := by
        simp [sendLoop, hst]
      rw [this]
      exact ih st1 h1
    | some e2 =>
      have : (sendLoop σ cfg stt (c :: rest) st).1 = st1 := by
        simp [sendLoop, hst]
      rw [this]
      exact h1

theorem inv_sendState (σ : Conn → Bool) (targets : List Conn)
    (st : SState D S) (h : Inv st) :
    Inv (sendStateToConnections σ targets st).1 := by
  simp only [sendStateToConnections, cacheScope]
  rcases hb : sendLoop σ st.config st.clusterState targets
      { st with cache := some [] } with ⟨st2, e⟩
  have h2 : Inv st2 := by
    have := inv_sendLoop σ st.config st.clusterState targets
      { st with cache := some [] } (Inv.of_eq h rfl rfl rfl rfl)
    rw [hb] at this
    exact this
  cases e with
  | none => exact Inv.of_eq h2 rfl rfl rfl rfl
  | some e2 => exact h2

/-- When the in-flight command of connection `c` (Deferred `d`) completes,
removing the Deferred and the in-flight entry preserves the invariant. -/
theorem inv_complete (st : SState D S) (hinv : Inv st) (c : Conn)
    (d : DeferredId) (b : Bool)
    (hcif : dictLookup c st.inFlight = some (d, b)) :
    Inv { st with pending := dictErase d st.pending,
                  inFlight := dictErase c st.inFlight } := by
  have hcmem : (c, (d, b)) ∈ st.inFlight := mem_of_dictLookup_eq_some hcif
  have hdpend : dictLookup d st.pending = some (chainShape c b) :=
    hinv.ifPend (c, (d, b)) hcmem
  constructor
  · exact dictKeys_dictErase_nodup hinv.ifNodup
  · exact dictKeys_dictErase_nodup hinv.pendNodup
  · exact hinv.sendsNodup
  · intro q hq
    exact hinv.pendLt q (mem_dictErase_of_nodup hinv.pendNodup hq).1
  · exact hinv.sendsLt
  · intro e he
    obtain ⟨hmem, hne⟩ := mem_dictErase_of_nodup hinv.ifNodup he
    have hne2 : e.2.1 ≠ d := by
      intro heq
      have h3 := hinv.ifPend e hmem
      rw [heq, hdpend] at h3
      injection h3 with h4
      exact hne (chainShape_inj h4).1.symm
    rw [dictLookup_dictErase_ne (fun hh => hne2 hh.symm)]
    exact hinv.ifPend e hmem
  · intro e he
    exact hinv.ifSend e (mem_dictErase_of_nodup hinv.ifNodup he).1
  · intro q hq
    obtain ⟨hmem, hne⟩ := mem_dictErase_of_nodup hinv.pendNodup hq
    obtain ⟨c2, b2, hcif2, hshape⟩ := hinv.pendIF q hmem
    have hc2 : c2 ≠ c := by
      intro heq
      rw [heq, hcif] at hcif2
      injection hcif2 with h5
      have h6 : d = q.1 := congrArg Prod.fst h5
      exact hne h6.symm
    refine ⟨c2, b2, ?_, hshape⟩
    rw [dictLookup_dictErase_ne (fun hh => hc2 hh.symm)]
    exact hcif2

theorem inv_fire (σ : Conn → Bool) (d : DeferredId) (res : Option PyErr)
    (st : SState D S) (hinv : Inv st) :
    Inv (fire (resend σ) d res st).1 := by
  rcases hlp : dictLookup d st.pending with _ | cbs
  · simp only [fire, hlp]
    exact hinv
  · obtain ⟨c, b, hcif, hcbs⟩ :=
      hinv.pendIF (d, cbs) (mem_of_dictLookup_eq_some hlp)
    simp only at hcbs
    subst hcbs
    have hinv2 : Inv { st with pending := dictErase d st.pending,
                               inFlight := dictErase c st.inFlight } :=
      inv_complete st hinv c d b hcif
    cases b
    · have : (fire (resend σ) d res st).1 =
          { st with pending := dictErase d st.pending,
                    inFlight := dictErase c st.inFlight } := by
        cases res <;> simp [fire, hlp, chainShape, runChain, runCB, hcif]
      rw [this]
      exact hinv2
    · have : (fire (resend σ) d res st).1 =
          (sendStateToConnections σ [c]
            { st with pending := dictErase d st.pending,
                      inFlight := dictErase c st.inFlight }).1 := by
        cases res <;>
          simp [fire, hlp, chainShape, runChain, runCB, hcif, resend]
      rw [this]
      exact inv_sendState σ [c] _ hinv2

/-- The operations the single-threaded event loop can perform on the
control service, over an arbitrary transport-failure environment `σ` and
arbitrary external configuration and node-state changes. -/
inductive Step (σ : Conn → Bool) : SState D S → SState D S → Prop where
  | connect (c : Conn) (st : SState D S) : Step σ st (connected σ c st).1
  | disconnect (c : Conn) (st : SState D S) (h : c ∈ st.connections) :
      Step σ st (disconnectedSvc c st)
  | configChange (d1 : D) (st : SState D S) :
      Step σ st (configChanged σ d1 st).1
  | nodeChange (s1 : S) (st : SState D S) :
      Step σ st (nodeChanged σ s1 st).1
  | reply (d : DeferredId) (res : Option PyErr) (st : SState D S) :
      Step σ st (fire (resend σ) d res st).1
  | stop (st : SState D S) : Step σ st (stopService st)
  | start (st : SState D S) : Step σ st (startService st)

/-- The states a control service constructed with configuration `d0` and
state snapshot `s0` can reach. -/
def Reachable (σ : Conn → Bool) (d0 : D) (s0 : S) (st : SState D S) : Prop :=
  Relation.ReflTransGen (Step σ) (mkService d0 s0) st

theorem inv_mkService (d0 : D) (s0 : S) : Inv (mkService d0 s0 : SState D S) := by
  constructor <;> simp [mkService, dictKeys]

theorem inv_step {σ : Conn → Bool} {st st2 : SState D S}
    (h : Step σ st st2) (hinv : Inv st) : Inv st2 := by
  cases h with
  | connect c st =>
    exact inv_sendState σ [c] _ (Inv.of_eq hinv rfl rfl rfl rfl)
  | disconnect c st hc => exact Inv.of_eq hinv rfl rfl rfl rfl
  | configChange d1 st =>
    exact inv_sendState σ _ _ (Inv.of_eq hinv rfl rfl rfl rfl)
  | nodeChange s1 st =>
    exact inv_sendState σ _ _ (Inv.of_eq hinv rfl rfl rfl rfl)
  | reply d res st => exact inv_fire σ d res st hinv
  | stop st => exact Inv.of_eq hinv rfl rfl rfl rfl
  | start st => exact Inv.of_eq hinv rfl rfl rfl rfl

theorem inv_reachable {σ : Conn → Bool} {d0 : D} {s0 : S} {st : SState D S}
    (h : Reachable σ d0 s0 st) : Inv st := by
  induction h with
  | refl => exact inv_mkService d0 s0
  | tail h1 h2 ih => exact inv_step h2 ih

/-- C3: invariant of the fan-out engine — at every instant of every
execution, every connection has at most one in-flight ClusterStatus
command: the broadcast only issues a new send on a connection absent from
`_current_command_for_connection`, and the entry is removed exactly when
the in-flight command's Deferred fires. -/
theorem claim_C3_at_most_one_in_flight (σ : Conn → Bool) (d0 : D) (s0 : S)
    (st : SState D S) (h : Reachable σ d0 s0 st) (c : Conn) :
    outstanding st c ≤ 1 :=
  (inv_reachable h).atMostOne c

theorem claim_C3_at_most_one_in_flight_witness :
    Reachable (fun _ => false) (0 : Nat) (0 : Nat)
      (connected (fun _ => false) 1 (mkService 0 0)).1 ∧
    outstanding (connected (fun _ => false) 1 (mkService 0 0)).1 1 ≤ 1 :=
  ⟨Relation.ReflTransGen.single (Step.connect 1 (mkService 0 0)),
    claim_C3_at_most_one_in_flight (fun _ => false) 0 0 _
      (Relation.ReflTransGen.single (Step.connect 1 (mkService 0 0))) 1⟩

end Flocker
